import Mathlib

/-!
# tradeMgr.cpp : per-instrument trade aggregation

A shallow embedding of `src/tradeMgr.cpp` and the properties its specification states.

Modelling conventions.
* `std::string` is a list of characters (`Str`).
* `long` is `Int`.  Signed overflow is undefined in C++; every timestamp the parser
  produces lies in `[0, 2^63)`, so no subtraction of two of them leaves the range of `long`
  (lemma `long_sub_in_range`).
* `double` is `ℚ`, and the arithmetic of `addDataEntry` on it is exact.  The conversion
  `stod` is modelled with its rounding to the nearest double and its range error.
* `std::map<string, TInstTradeData>` is an association list kept in ascending key order.
* A stream read by `getline(_, _, '\n')` is the list of lines it yields.
* A run ends in a `Fault` when an exception leaves `main` or when the behaviour is undefined,
  as `line.back()` is on an empty line and `long(x)` is on a double no `long` holds.
* The text `operator<<` writes for a `double` is a parameter, `showDouble`.
-/

namespace TradeMgr

/-! ## Data model -/

/-- A `std::string`. -/
abbrev Str := List Char

/-- One data entry read from the input file (`struct TDataEntry`). -/
structure TDataEntry where
  timestamp : Int
  instrument : Str
  quantity : ℚ
  price : ℚ
deriving DecidableEq

/-- The trade data stored for each instrument (`struct TInstTradeData`). -/
structure TInstTradeData where
  lastTradeTime : Int
  maxTradeGap : Int
  totalVolume : ℚ
  totalConsideration : ℚ
  maxPrice : ℚ
deriving DecidableEq

instance : Inhabited TDataEntry :=
  ⟨{ timestamp := 0, instrument := [], quantity := 0, price := 0 }⟩

instance : Inhabited TInstTradeData :=
  ⟨{ lastTradeTime := 0, maxTradeGap := 0, totalVolume := 0, totalConsideration := 0,
     maxPrice := 0 }⟩

/-- The constructor `TInstTradeData(const TDataEntry &entry)`. -/
def TInstTradeData.ofEntry (entry : TDataEntry) : TInstTradeData :=
  { lastTradeTime := entry.timestamp
    maxTradeGap := 0
    totalVolume := entry.quantity
    totalConsideration := entry.price * entry.quantity
    maxPrice := entry.price }

/-! ## Faults -/

/-- What can end a run other than a normal return. -/
inductive Fault where
  /-- Undefined behaviour: `back()` on an empty string, an index past the end of a vector,
  the conversion to `long` of a double that no `long` holds. -/
  | undefinedBehaviour
  /-- The exception `std::invalid_argument`. -/
  | invalidArgument
  /-- The exception `std::out_of_range`. -/
  | outOfRange
  /-- An input outside the fragment of a library function that is modelled. -/
  | notModelled
deriving DecidableEq, Repr

/-! ## `std::map<string, TInstTradeData>` -/

/-- The order `std::less<std::string>` puts on the keys: lexicographic comparison of the
characters, a proper initial segment coming first. -/
def strLt : Str → Str → Bool
  | [], [] => false
  | [], _ :: _ => true
  | _ :: _, [] => false
  | a :: as, b :: bs =>
    if a.toNat < b.toNat then true
    else if b.toNat < a.toNat then false
    else strLt as bs

/-- The map of the trade data manager: key and value pairs in ascending key order. -/
abbrev TradeMap := List (Str × TInstTradeData)

/-- The lookup `m.find(k)`: `none` stands for `m.end()`. -/
def mapFind (k : Str) : TradeMap → Option TInstTradeData
  | [] => none
  | (k', v) :: rest => if k' = k then some v else mapFind k rest

/-- The assignment `m[k] = v`: overwrites the value stored under `k`, or inserts the pair at
its place in key order. -/
def mapSet (k : Str) (v : TInstTradeData) : TradeMap → TradeMap
  | [] => [(k, v)]
  | (k', v') :: rest =>
    if k' = k then (k, v) :: rest
    else if strLt k k' then (k, v) :: (k', v') :: rest
    else (k', v') :: mapSet k v rest

/-! ## `CTradeDataMgr` -/

/-- The functor interface `CDataPresenter`: from the text already written to `out` and the
data, the text of `out` afterwards, or the fault the presenter ends in. -/
abbrev CDataPresenter := Str → TradeMap → Except Fault Str

/-- The state of a `CTradeDataMgr`; `presenter = none` is the null pointer. -/
structure CTradeDataMgr where
  tradeDataLookup : TradeMap
  presenter : Option CDataPresenter

/-- A freshly constructed `CTradeDataMgr`: an empty map and no presenter. -/
def CTradeDataMgr.init : CTradeDataMgr :=
  { tradeDataLookup := [], presenter := none }

/-- The method `CTradeDataMgr::addDataEntry`. -/
def addDataEntry (mgr : CTradeDataMgr) (entry : TDataEntry) : CTradeDataMgr :=
  match mapFind entry.instrument mgr.tradeDataLookup with
  | none =>
    let tradeData := TInstTradeData.ofEntry entry
    { mgr with tradeDataLookup := mapSet entry.instrument tradeData mgr.tradeDataLookup }
  | some pdata =>
    let pdata := { pdata with
      maxTradeGap := max pdata.maxTradeGap (entry.timestamp - pdata.lastTradeTime) }
    let pdata := { pdata with maxPrice := max pdata.maxPrice entry.price }
    let pdata := { pdata with lastTradeTime := entry.timestamp }
    let pdata := { pdata with totalVolume := pdata.totalVolume + entry.quantity }
    let pdata := { pdata with
      totalConsideration := pdata.totalConsideration + entry.price * entry.quantity }
    { mgr with tradeDataLookup := mapSet entry.instrument pdata mgr.tradeDataLookup }

/-- The method `CTradeDataMgr::setDataPresenter`. -/
def setDataPresenter (mgr : CTradeDataMgr) (p : Option CDataPresenter) : CTradeDataMgr :=
  { mgr with presenter := p }

/-- The method `CTradeDataMgr::presentData`: the manager and the text of `out` afterwards. -/
def presentData (mgr : CTradeDataMgr) (out : Str) : Except Fault (CTradeDataMgr × Str) :=
  match mgr.presenter with
  | some presenter =>
    match presenter out mgr.tradeDataLookup with
    | Except.error f => Except.error f
    | Except.ok out => Except.ok (mgr, out)
  | none => Except.ok (mgr, out)

/-- A sequence of `addDataEntry` calls, in order. -/
def addAll (mgr : CTradeDataMgr) (entries : List TDataEntry) : CTradeDataMgr :=
  entries.foldl addDataEntry mgr

/-- The aggregate stored for `inst`, if any. -/
def aggregateOf (mgr : CTradeDataMgr) (inst : Str) : Option TInstTradeData :=
  mapFind inst mgr.tradeDataLookup

/-! ## The reference step of the specification -/

/-- The aggregate the specification prescribes after a record `r`, from the aggregate `old`
its instrument had before (`none` when the instrument was absent). -/
def specAggregate (old : Option TInstTradeData) (r : TDataEntry) : TInstTradeData :=
  match old with
  | none =>
    { lastTradeTime := r.timestamp
      maxTradeGap := 0
      totalVolume := r.quantity
      totalConsideration := r.price * r.quantity
      maxPrice := r.price }
  | some a =>
    { lastTradeTime := r.timestamp
      maxTradeGap := max a.maxTradeGap (r.timestamp - a.lastTradeTime)
      totalVolume := a.totalVolume + r.quantity
      totalConsideration := a.totalConsideration + r.price * r.quantity
      maxPrice := max a.maxPrice r.price }

/-- The records of `entries` whose instrument is `inst`, in arrival order. -/
def recordsOf (inst : Str) (entries : List TDataEntry) : List TDataEntry :=
  entries.filter (fun r => r.instrument = inst)

/-- The fold of the reference step over further records, from a stored aggregate. -/
def runAggregate (a : TInstTradeData) (rs : List TDataEntry) : TInstTradeData :=
  rs.foldl (fun a r => specAggregate (some a) r) a

/-- The differences between each timestamp and the one immediately before it. -/
def gaps : List Int → List Int
  | a :: b :: rest => (b - a) :: gaps (b :: rest)
  | _ => []

/-- The timestamps of the records of `inst`, in arrival order. -/
def timestampsOf (inst : Str) (entries : List TDataEntry) : List Int :=
  (recordsOf inst entries).map (fun r => r.timestamp)

/-- The trade gap as the specification words it: the maximum of the differences between
successive timestamps, `none` when there is no difference to take. -/
def specMaxTradeGap (ts : List Int) : Option Int :=
  (gaps ts).max?

/-- The two records of the out-of-order scenario: `200,xyz,1,1` then `100,xyz,1,1`. -/
def scenario2 : List TDataEntry :=
  [{ timestamp := 200, instrument := ['x', 'y', 'z'], quantity := 1, price := 1 },
   { timestamp := 100, instrument := ['x', 'y', 'z'], quantity := 1, price := 1 }]

/-! ## The line format -/

/-- A bracket expression of the pattern: the union of the listed characters. -/
def charClass (cs : List Char) : RegularExpression Char :=
  cs.foldr (fun c r => RegularExpression.char c + r) 0

/-- The characters of the bracket expression `[0-9]`. -/
def digitChars : List Char := ['0', '1', '2', '3', '4', '5', '6', '7', '8', '9']

/-- The characters of the bracket expression `[a-z]`. -/
def lowerChars : List Char :=
  ['a', 'b', 'c', 'd', 'e', 'f', 'g', 'h', 'i', 'j', 'k', 'l', 'm',
   'n', 'o', 'p', 'q', 'r', 's', 't', 'u', 'v', 'w', 'x', 'y', 'z']

/-- The quantifier `P+`: one repetition of `P` or more. -/
def oneOrMore (P : RegularExpression Char) : RegularExpression Char :=
  P * P.star

/-- The pattern `[0-9]+,[a-z]+,[0-9]+,[0-9]+` of `main`. -/
def dataFormat : RegularExpression Char :=
  oneOrMore (charClass digitChars) * RegularExpression.char ','
    * oneOrMore (charClass lowerChars) * RegularExpression.char ','
    * oneOrMore (charClass digitChars) * RegularExpression.char ','
    * oneOrMore (charClass digitChars)

/-- The library call `regex_match(line, format)`: the whole of `line` matches `format`. -/
def regex_match (line : Str) (format : RegularExpression Char) : Bool :=
  format.rmatch line

/-- The validity predicate as the specification words it: splitting the line on commas gives
exactly four fields, none of them empty, the first, third and fourth made of digits only and
the second of lowercase letters only. -/
def SpecValid (line : Str) : Prop :=
  ∃ f0 f1 f2 f3 : Str, line.splitOn ',' = [f0, f1, f2, f3]
    ∧ f0 ≠ [] ∧ f1 ≠ [] ∧ f2 ≠ [] ∧ f3 ≠ []
    ∧ (∀ c ∈ f0, c.isDigit = true) ∧ (∀ c ∈ f1, c.isLower = true)
    ∧ (∀ c ∈ f2, c.isDigit = true) ∧ (∀ c ∈ f3, c.isDigit = true)

/-- A line of the shape `digits , letters , digits , digits`, every field non-empty. -/
def Shape (line f0 f1 f2 f3 : Str) : Prop :=
  line = f0 ++ ',' :: (f1 ++ ',' :: (f2 ++ ',' :: f3))
    ∧ f0 ≠ [] ∧ f1 ≠ [] ∧ f2 ≠ [] ∧ f3 ≠ []
    ∧ (∀ c ∈ f0, c.isDigit = true) ∧ (∀ c ∈ f1, c.isLower = true)
    ∧ (∀ c ∈ f2, c.isDigit = true) ∧ (∀ c ∈ f3, c.isDigit = true)

/-! ## Conversions of the standard library -/

/-- The largest `long`: `2^63 - 1`. -/
def LONG_MAX : Int := 9223372036854775807

/-- The smallest `long`: `-2^63`. -/
def LONG_MIN : Int := -9223372036854775808

/-- The characters `isspace` accepts in the C locale. -/
def isSpace (c : Char) : Bool :=
  c = ' ' || c = '\t' || c = '\n' || c = Char.ofNat 11 || c = Char.ofNat 12 || c = '\r'

/-- The value of a decimal digit. -/
def digitValue (c : Char) : Nat :=
  c.toNat - 48

/-- The number a string of decimal digits denotes. -/
def decimalValue (ds : Str) : Nat :=
  ds.foldl (fun acc c => 10 * acc + digitValue c) 0

/-- The library call `stol(s)` in base 10: white space is skipped, a sign is read, then the
longest run of digits; `invalid_argument` without a digit, `out_of_range` when the value does
not fit a `long`. -/
def stol (s : Str) : Except Fault Int :=
  let s := s.dropWhile isSpace
  let signed : Bool × Str :=
    match s with
    | '-' :: rest => (true, rest)
    | '+' :: rest => (false, rest)
    | _ => (false, s)
  let ds := signed.2.takeWhile Char.isDigit
  if ds = [] then Except.error Fault.invalidArgument
  else
    let v : Int := if signed.1 then -(decimalValue ds : Int) else (decimalValue ds : Int)
    if v < LONG_MIN ∨ LONG_MAX < v then Except.error Fault.outOfRange
    else Except.ok v

/-- The double nearest to the natural number `n`, ties going to the even significand of 53
bits; `none` when the rounded value exceeds the largest finite double. -/
def roundToDouble (n : Nat) : Option Nat :=
  if n < 2 ^ 53 then some n
  else
    let e := Nat.log2 n - 52
    let q := n / 2 ^ e
    let r := n % 2 ^ e
    let half := 2 ^ (e - 1)
    let m := if r < half then q else if half < r then q + 1 else if q % 2 = 0 then q else q + 1
    let v := m * 2 ^ e
    if v < 2 ^ 1024 then some v else none

/-- The library call `stod(s)` on a string of decimal digits, the only strings the pattern
lets reach it: the nearest double, or `out_of_range`.  Other spellings of a number (sign,
fraction, exponent, hexadecimal, infinities) are outside the model. -/
def stod (s : Str) : Except Fault ℚ :=
  if s ≠ [] ∧ s.all Char.isDigit = true then
    match roundToDouble (decimalValue s) with
    | some v => Except.ok (v : ℚ)
    | none => Except.error Fault.outOfRange
  else Except.error Fault.notModelled

/-- The library call `getline(ss, field, delim)`: `none` when nothing is left to extract,
else the field read and what is left of the stream, the delimiter consumed. -/
def getline (delim : Char) : Str → Option (Str × Str)
  | [] => none
  | c :: cs =>
    if c = delim then some ([], cs)
    else
      match getline delim cs with
      | some (field, rest) => some (c :: field, rest)
      | none => some ([c], [])

/-- The loop `while (getline(ss, field, ',')) fields.push_back(field)`, at most `fuel` turns. -/
def readFields : Nat → Str → List Str
  | 0, _ => []
  | fuel + 1, ss =>
    match getline ',' ss with
    | none => []
    | some (field, rest) => field :: readFields fuel rest

/-- The access `fields[i]`, undefined past the end of the vector. -/
def fieldAt (fields : List Str) (i : Nat) : Except Fault Str :=
  match fields.get? i with
  | some f => Except.ok f
  | none => Except.error Fault.undefinedBehaviour

/-! ## `CDataIterator` -/

/-- The state of a `CDataIterator`: the lines `dataStream` has yet to yield, and `line`. -/
structure CDataIterator where
  dataStream : List Str
  line : Str

/-- The text that opens every diagnostic. -/
def skipMessage : Str := "Skipping mal-formatted data line : ".toList

/-- The statement `if (line.back() == '\r') line.pop_back();`, undefined on an empty line. -/
def stripReturn (line : Str) : Except Fault Str :=
  match line.getLast? with
  | none => Except.error Fault.undefinedBehaviour
  | some c => if c = '\r' then Except.ok line.dropLast else Except.ok line

/-- The loop of `CDataIterator::HasNext` over the lines left in the stream: the value
returned, the iterator afterwards, and the lines written to `clog`. -/
def hasNextLoop : List Str → Str → List Str → Except Fault (Bool × CDataIterator × List Str)
  | [], line, clog => Except.ok (false, { dataStream := [], line := line }, clog)
  | raw :: rest, _, clog =>
    match stripReturn raw with
    | Except.error f => Except.error f
    | Except.ok line =>
      if regex_match line dataFormat then
        Except.ok (true, { dataStream := rest, line := line }, clog)
      else hasNextLoop rest line (clog ++ [skipMessage ++ line])

/-- The method `CDataIterator::HasNext`. -/
def HasNext (it : CDataIterator) (clog : List Str) :
    Except Fault (Bool × CDataIterator × List Str) :=
  hasNextLoop it.dataStream it.line clog

/-- The method `CDataIterator::GetNext`. -/
def GetNext (it : CDataIterator) : Except Fault TDataEntry :=
  let fields := readFields (it.line.length + 1) it.line
  match fieldAt fields 0 with
  | Except.error f => Except.error f
  | Except.ok f0 =>
    match stol f0 with
    | Except.error f => Except.error f
    | Except.ok timestamp =>
      match fieldAt fields 1 with
      | Except.error f => Except.error f
      | Except.ok instrument =>
        match fieldAt fields 2 with
        | Except.error f => Except.error f
        | Except.ok f2 =>
          match stod f2 with
          | Except.error f => Except.error f
          | Except.ok quantity =>
            match fieldAt fields 3 with
            | Except.error f => Except.error f
            | Except.ok f3 =>
              match stod f3 with
              | Except.error f => Except.error f
              | Except.ok price =>
                Except.ok { timestamp := timestamp, instrument := instrument,
                            quantity := quantity, price := price }

/-! ## The ingest loop of `main` -/

/-- The loop `while (dataIt.HasNext()) tradeMgr.addDataEntry(dataIt.GetNext());` run for at
most `fuel` turns: `none` when the turns run out, else the fault that ended the run or the
manager and the diagnostics at the end. -/
def ingestLoop : Nat → CDataIterator → CTradeDataMgr → List Str →
    Option (Except Fault (CTradeDataMgr × List Str))
  | 0, _, _, _ => none
  | fuel + 1, dataIt, tradeMgr, clog =>
    match HasNext dataIt clog with
    | Except.error f => some (Except.error f)
    | Except.ok (false, _, clog) => some (Except.ok (tradeMgr, clog))
    | Except.ok (true, dataIt, clog) =>
      match GetNext dataIt with
      | Except.error f => some (Except.error f)
      | Except.ok dataEntry => ingestLoop fuel dataIt (addDataEntry tradeMgr dataEntry) clog

/-- The ingest of `main` over the lines of the input file, from the manager `tradeMgr` and
an empty `clog`: one turn of the loop for each line and one more. -/
def ingest (tradeMgr : CTradeDataMgr) (lines : List Str) :
    Option (Except Fault (CTradeDataMgr × List Str)) :=
  ingestLoop (lines.length + 1) { dataStream := lines, line := [] } tradeMgr []

/-- The least natural number whose nearest double is not finite: `2^1024 - 2^970`. -/
def DOUBLE_OVERFLOW : Nat := 2 ^ 1024 - 2 ^ 970

/-- The entry `GetNext` builds from the four fields of a line of the expected shape. -/
def entryOfFields (f0 f1 f2 f3 : Str) : Except Fault TDataEntry :=
  if LONG_MAX < (decimalValue f0 : Int) then Except.error Fault.outOfRange
  else
    match roundToDouble (decimalValue f2) with
    | none => Except.error Fault.outOfRange
    | some q =>
      match roundToDouble (decimalValue f3) with
      | none => Except.error Fault.outOfRange
      | some p =>
        Except.ok { timestamp := (decimalValue f0 : Int), instrument := f1,
                    quantity := (q : ℚ), price := (p : ℚ) }

/-- A line of the expected shape whose timestamp is `2^63`, one more than `LONG_MAX`. -/
def overflowLine : Str := "9223372036854775808,abc,1,1".toList

/-- The first line of scenario 1 of the specification. -/
def sampleLine : Str := "100,abc,10,5".toList

/-- The decimal digits of a natural number, most significant first. -/
def decimalDigits (n : Nat) : Str :=
  if n = 0 then ['0'] else (Nat.digits 10 n).reverse.map (fun d => Char.ofNat (48 + d))

/-- The line `t,inst,q,p`, the numbers written in decimal. -/
def mkLine (t : Nat) (inst : Str) (q p : Nat) : Str :=
  decimalDigits t ++ ',' :: (inst ++ ',' :: (decimalDigits q ++ ',' :: decimalDigits p))

/-- The ingest loop with `HasNext` unrolled line by line: the fault that ends the run, or the
manager and the diagnostics once the lines are exhausted. -/
def processLines : List Str → CTradeDataMgr → List Str → Except Fault (CTradeDataMgr × List Str)
  | [], tradeMgr, clog => Except.ok (tradeMgr, clog)
  | raw :: rest, tradeMgr, clog =>
    match stripReturn raw with
    | Except.error f => Except.error f
    | Except.ok line =>
      if regex_match line dataFormat then
        match GetNext { dataStream := rest, line := line } with
        | Except.error f => Except.error f
        | Except.ok dataEntry => processLines rest (addDataEntry tradeMgr dataEntry) clog
      else processLines rest tradeMgr (clog ++ [skipMessage ++ line])

/-- A line of the expected shape whose quantity is zero. -/
def zeroQuantityLine : Str := "100,abc,0,5".toList

/-! ## `CQuantLabPresenter` -/

/-- The integer part of `x`, rounding toward zero. -/
def truncate (x : ℚ) : Int :=
  if 0 ≤ x then ⌊x⌋ else ⌈x⌉

/-- The conversion `long(x)` of a double: the integer part of `x`, undefined when it is not in
the range of `long`. -/
def toLong (x : ℚ) : Except Fault Int :=
  if LONG_MIN ≤ truncate x ∧ truncate x ≤ LONG_MAX then Except.ok (truncate x)
  else Except.error Fault.undefinedBehaviour

/-- The expression `long(totalConsideration / totalVolume)`. Dividing by a zero volume gives
an infinity or a NaN, which no `long` holds. -/
def averagePrice (a : TInstTradeData) : Except Fault Int :=
  if a.totalVolume = 0 then Except.error Fault.undefinedBehaviour
  else toLong (a.totalConsideration / a.totalVolume)

/-- The text `operator<<` writes for a `long`: its decimal digits, after a minus sign when it
is negative. -/
def showLong (n : Int) : Str :=
  if n < 0 then '-' :: decimalDigits n.natAbs else decimalDigits n.natAbs

/-- The body of the loop of `CQuantLabPresenter::operator()`: the line written for one pair
of the map, `showDouble` being the text `operator<<` writes for a `double`. -/
def presentLine (showDouble : ℚ → Str) (p : Str × TInstTradeData) : Except Fault Str :=
  match averagePrice p.2 with
  | Except.error f => Except.error f
  | Except.ok average =>
    Except.ok (p.1 ++ ',' :: (showLong p.2.maxTradeGap ++ ',' :: (showDouble p.2.totalVolume
      ++ ',' :: (showLong average ++ ',' :: (showDouble p.2.maxPrice ++ ['\n'])))))

/-- The functor `CQuantLabPresenter`: one line for each pair of the map, in the order of the
map. -/
def CQuantLabPresenter (showDouble : ℚ → Str) : CDataPresenter
  | out, [] => Except.ok out
  | out, p :: rest =>
    match presentLine showDouble p with
    | Except.error f => Except.error f
    | Except.ok line => CQuantLabPresenter showDouble (out ++ line) rest

/-- The function `main` after its files are opened: from the lines of the input file, the
text of the output file and the lines written to `clog`. -/
def main (showDouble : ℚ → Str) (input : List Str) : Option (Except Fault (Str × List Str)) :=
  let tradeMgr := setDataPresenter CTradeDataMgr.init (some (CQuantLabPresenter showDouble))
  match ingest tradeMgr input with
  | none => none
  | some (Except.error f) => some (Except.error f)
  | some (Except.ok (tradeMgr, clog)) =>
    match presentData tradeMgr [] with
    | Except.error f => some (Except.error f)
    | Except.ok (_, output) => some (Except.ok (output, clog))

/-- The keys of a map, in the order of the map. -/
def keysOf (m : TradeMap) : List Str :=
  m.map Prod.fst

/-- A map whose keys are in strictly ascending order. -/
def Ascending (m : TradeMap) : Prop :=
  (keysOf m).Pairwise (fun a b => strLt a b = true)

/-- The text `operator<<` writes for a `double` that is a natural number below `10^6`: its
decimal digits. Used for the worked scenarios only. -/
def showNatural (x : ℚ) : Str :=
  decimalDigits ⌊x⌋.toNat

/-- The two records of scenario 1: `100,abc,10,5` then `150,abc,20,6`. -/
def scenario1 : List TDataEntry :=
  [{ timestamp := 100, instrument := ['a', 'b', 'c'], quantity := 10, price := 5 },
   { timestamp := 150, instrument := ['a', 'b', 'c'], quantity := 20, price := 6 }]

/-- The instrument identifier of an input line that is accepted, as the specification words
it: the second field of the line, stripped of one trailing carriage return, split on commas;
`none` for a line that is not accepted. -/
def acceptedInstrument (raw : Str) : Option Str :=
  match stripReturn raw with
  | Except.ok line => if regex_match line dataFormat then (line.splitOn ',').get? 1 else none
  | Except.error _ => none

/-- The instrument identifiers of the accepted lines, in input order. -/
def acceptedInstruments (lines : List Str) : List Str :=
  lines.filterMap acceptedInstrument

/-- The rejected line of scenario 3. -/
def rejectedLine : Str := "abc,xyz,1,1".toList

/-- Whether `HasNext` accepts an input line: stripped of one trailing carriage return, it
matches the pattern. -/
def isAccepted (raw : Str) : Bool :=
  match stripReturn raw with
  | Except.ok line => regex_match line dataFormat
  | Except.error _ => false

/-- The diagnostics as the specification words them: one for each rejected line, in input
order, the text `Skipping mal-formatted data line : ` followed by the original text of the
line. -/
def specDiagnostics (lines : List Str) : List Str :=
  (lines.filter (fun raw => !isAccepted raw)).map (fun raw => skipMessage ++ raw)

/-- The diagnostic `HasNext` writes for an input line: none for an accepted line, and for a
rejected one the text `Skipping mal-formatted data line : ` followed by the line stripped of
one trailing carriage return. -/
def diagnosticOf (raw : Str) : Option Str :=
  match stripReturn raw with
  | Except.ok line => if regex_match line dataFormat then none else some (skipMessage ++ line)
  | Except.error _ => none

/-! ## Lemmas on the map -/

theorem mapFind_mapSet_self (k : Str) (v : TInstTradeData) (m : TradeMap) :
    mapFind k (mapSet k v m) = some v := by
  induction m with
  | nil => simp [mapSet, mapFind]
  | cons kv rest ih =>
    obtain ⟨k', v'⟩ := kv
    by_cases h : k' = k
    · simp [mapSet, mapFind, h]
    · by_cases hlt : strLt k k' = true
      · simp [mapSet, mapFind, h, hlt]
      · simp [mapSet, mapFind, h, hlt, ih]

theorem mapFind_mapSet_other (k k₁ : Str) (v : TInstTradeData) (m : TradeMap) (hne : k₁ ≠ k) :
    mapFind k₁ (mapSet k v m) = mapFind k₁ m := by
  induction m with
  | nil => simp [mapSet, mapFind, Ne.symm hne]
  | cons kv rest ih =>
    obtain ⟨k', v'⟩ := kv
    by_cases h : k' = k
    · subst h
      simp [mapSet, mapFind, Ne.symm hne]
    · by_cases hlt : strLt k k' = true
      · simp [mapSet, mapFind, h, hlt, Ne.symm hne]
      · by_cases h1 : k' = k₁
        · subst h1
          simp [mapSet, mapFind, h, hlt]
        · simp [mapSet, mapFind, h, hlt, h1, ih]

/-! ## Lemmas on `addDataEntry` -/

theorem aggregateOf_addDataEntry_self (mgr : CTradeDataMgr) (r : TDataEntry) :
    aggregateOf (addDataEntry mgr r) r.instrument
      = some (specAggregate (aggregateOf mgr r.instrument) r) := by
  unfold aggregateOf addDataEntry
  cases h : mapFind r.instrument mgr.tradeDataLookup with
  | none => simp [mapFind_mapSet_self, specAggregate, TInstTradeData.ofEntry]
  | some a => simp [mapFind_mapSet_self, specAggregate]

theorem aggregateOf_addDataEntry_other (mgr : CTradeDataMgr) (r : TDataEntry) (inst : Str)
    (hne : inst ≠ r.instrument) :
    aggregateOf (addDataEntry mgr r) inst = aggregateOf mgr inst := by
  unfold aggregateOf addDataEntry
  cases h : mapFind r.instrument mgr.tradeDataLookup with
  | none => simp [mapFind_mapSet_other _ _ _ _ hne]
  | some a => simp [mapFind_mapSet_other _ _ _ _ hne]

/-- The aggregate of `inst` after a run of records is the fold of the reference step over the
records of `inst` alone. -/
theorem aggregateOf_addAll (entries : List TDataEntry) (mgr : CTradeDataMgr) (inst : Str) :
    aggregateOf (addAll mgr entries) inst
      = (recordsOf inst entries).foldl (fun o r => some (specAggregate o r))
          (aggregateOf mgr inst) := by
  induction entries generalizing mgr with
  | nil => simp [addAll, recordsOf]
  | cons r rest ih =>
    have hstep : addAll mgr (r :: rest) = addAll (addDataEntry mgr r) rest := by
      simp [addAll]
    rw [hstep, ih]
    by_cases h : r.instrument = inst
    · subst h
      simp [recordsOf, aggregateOf_addDataEntry_self]
    · have hne : inst ≠ r.instrument := fun e => h e.symm
      simp [recordsOf, h, aggregateOf_addDataEntry_other _ _ _ hne]

/-! ## Lemmas on the fold of one instrument -/

theorem foldl_some_specAggregate (rs : List TDataEntry) (a : TInstTradeData) :
    rs.foldl (fun o r => some (specAggregate o r)) (some a) = some (runAggregate a rs) := by
  induction rs generalizing a with
  | nil => rfl
  | cons r rest ih => simp only [List.foldl_cons, runAggregate, ih]

theorem foldl_none_specAggregate (r : TDataEntry) (rs : List TDataEntry) :
    (r :: rs).foldl (fun o r => some (specAggregate o r)) none
      = some (runAggregate (TInstTradeData.ofEntry r) rs) := by
  simp only [List.foldl_cons]
  rw [foldl_some_specAggregate]
  rfl

theorem runAggregate_cons (a : TInstTradeData) (r : TDataEntry) (rs : List TDataEntry) :
    runAggregate a (r :: rs) = runAggregate (specAggregate (some a) r) rs := rfl

theorem runAggregate_totalVolume (rs : List TDataEntry) (a : TInstTradeData) :
    (runAggregate a rs).totalVolume = a.totalVolume + (rs.map (fun r => r.quantity)).sum := by
  induction rs generalizing a with
  | nil => simp [runAggregate]
  | cons r rest ih =>
    rw [runAggregate_cons, ih]
    simp [specAggregate, add_assoc]

theorem runAggregate_totalConsideration (rs : List TDataEntry) (a : TInstTradeData) :
    (runAggregate a rs).totalConsideration
      = a.totalConsideration + (rs.map (fun r => r.price * r.quantity)).sum := by
  induction rs generalizing a with
  | nil => simp [runAggregate]
  | cons r rest ih =>
    rw [runAggregate_cons, ih]
    simp [specAggregate, add_assoc]

theorem runAggregate_maxPrice_ge (rs : List TDataEntry) (a : TInstTradeData) :
    a.maxPrice ≤ (runAggregate a rs).maxPrice
      ∧ ∀ r ∈ rs, r.price ≤ (runAggregate a rs).maxPrice := by
  induction rs generalizing a with
  | nil => simp [runAggregate]
  | cons r rest ih =>
    rw [runAggregate_cons]
    obtain ⟨h1, h2⟩ := ih (specAggregate (some a) r)
    have ha : a.maxPrice ≤ (specAggregate (some a) r).maxPrice := le_max_left _ _
    have hr : r.price ≤ (specAggregate (some a) r).maxPrice := le_max_right _ _
    refine ⟨le_trans ha h1, ?_⟩
    intro r' hr'
    rcases List.mem_cons.mp hr' with h | h
    · subst h
      exact le_trans hr h1
    · exact h2 r' h

theorem runAggregate_maxPrice_attained (rs : List TDataEntry) (a : TInstTradeData) :
    (runAggregate a rs).maxPrice = a.maxPrice
      ∨ ∃ r ∈ rs, r.price = (runAggregate a rs).maxPrice := by
  induction rs generalizing a with
  | nil => simp [runAggregate]
  | cons r rest ih =>
    rw [runAggregate_cons]
    rcases ih (specAggregate (some a) r) with h | ⟨r', hr', h⟩
    · rw [h]
      rcases max_choice a.maxPrice r.price with hm | hm
      · left
        simpa [specAggregate] using hm
      · right
        refine ⟨r, List.mem_cons_self _ _, ?_⟩
        simp [specAggregate, hm]
    · exact Or.inr ⟨r', List.mem_cons_of_mem _ hr', h⟩

theorem foldl_max_ge (l : List Int) (b : Int) : b ≤ l.foldl max b := by
  induction l generalizing b with
  | nil => simp
  | cons d ds ih => exact le_trans (le_max_left b d) (ih (max b d))

theorem foldl_max_max (l : List Int) (a b : Int) :
    l.foldl max (max a b) = max a (l.foldl max b) := by
  induction l generalizing b with
  | nil => simp
  | cons d ds ih => simp only [List.foldl_cons, max_assoc, ih]

theorem runAggregate_maxTradeGap (rs : List TDataEntry) (a : TInstTradeData) :
    (runAggregate a rs).maxTradeGap
      = (gaps (a.lastTradeTime :: rs.map (fun r => r.timestamp))).foldl max a.maxTradeGap := by
  induction rs generalizing a with
  | nil => simp [runAggregate, gaps]
  | cons r rest ih =>
    rw [runAggregate_cons, ih]
    simp [specAggregate, gaps]

/-- The aggregate of an instrument that occurs: the fold from the seed of its first record. -/
theorem aggregateOf_init_addAll (entries : List TDataEntry) (inst : Str) (r : TDataEntry)
    (rs : List TDataEntry) (h : recordsOf inst entries = r :: rs) :
    aggregateOf (addAll CTradeDataMgr.init entries) inst
      = some (runAggregate (TInstTradeData.ofEntry r) rs) := by
  rw [aggregateOf_addAll, h]
  exact foldl_none_specAggregate r rs

theorem recordsOf_ne_nil (entries : List TDataEntry) (inst : Str)
    (h : inst ∈ entries.map (fun r => r.instrument)) : recordsOf inst entries ≠ [] := by
  obtain ⟨r, hr, hi⟩ := List.mem_map.mp h
  have : r ∈ recordsOf inst entries := by
    simp [recordsOf, List.mem_filter, hr, hi]
  exact List.ne_nil_of_mem this

theorem mem_recordsOf (entries : List TDataEntry) (inst : Str) (r : TDataEntry) :
    r ∈ recordsOf inst entries ↔ r ∈ entries ∧ r.instrument = inst := by
  simp [recordsOf, List.mem_filter]

/-! ## Lemmas on the line format -/

theorem mem_charClass (cs : List Char) (x : Str) :
    x ∈ (charClass cs).matches' ↔ ∃ c ∈ cs, x = [c] := by
  induction cs with
  | nil => simp [charClass]
  | cons c cs ih =>
    have hunf : charClass (c :: cs) = RegularExpression.char c + charClass cs := rfl
    rw [hunf, RegularExpression.matches'_add, Language.mem_add, ih]
    simp only [RegularExpression.matches'_char, List.mem_cons]
    constructor
    · rintro (h | ⟨c', hc', rfl⟩)
      · exact ⟨c, Or.inl rfl, h⟩
      · exact ⟨c', Or.inr hc', rfl⟩
    · rintro ⟨c', hc' | hc', rfl⟩
      · left
        rw [hc']
        rfl
      · exact Or.inr ⟨c', hc', rfl⟩

theorem mem_star_charClass (cs : List Char) (x : Str) :
    x ∈ (charClass cs).star.matches' ↔ ∀ c ∈ x, c ∈ cs := by
  rw [RegularExpression.matches'_star, Language.mem_kstar]
  constructor
  · rintro ⟨L, rfl, hL⟩ c hc
    obtain ⟨y, hy, hcy⟩ := List.mem_flatten.mp hc
    obtain ⟨c', hc', rfl⟩ := (mem_charClass cs y).mp (hL y hy)
    rw [List.mem_singleton.mp hcy]
    exact hc'
  · intro h
    refine ⟨x.map (fun c => [c]), ?_, ?_⟩
    · clear h
      induction x with
      | nil => rfl
      | cons c x ih => simp [← ih]
    · intro y hy
      obtain ⟨c, hc, rfl⟩ := List.mem_map.mp hy
      exact (mem_charClass cs [c]).mpr ⟨c, h c hc, rfl⟩

theorem mem_oneOrMore_charClass (cs : List Char) (x : Str) :
    x ∈ (oneOrMore (charClass cs)).matches' ↔ x ≠ [] ∧ ∀ c ∈ x, c ∈ cs := by
  unfold oneOrMore
  rw [RegularExpression.matches'_mul, Language.mem_mul]
  constructor
  · rintro ⟨a, ha, b, hb, rfl⟩
    obtain ⟨c, hc, rfl⟩ := (mem_charClass cs a).mp ha
    refine ⟨by simp, ?_⟩
    intro c' hc'
    rcases List.mem_append.mp hc' with h | h
    · rw [List.mem_singleton.mp h]
      exact hc
    · exact (mem_star_charClass cs b).mp hb c' h
  · rintro ⟨hne, h⟩
    cases x with
    | nil => exact absurd rfl hne
    | cons c x =>
      refine ⟨[c], (mem_charClass cs [c]).mpr ⟨c, h c (List.mem_cons_self _ _), rfl⟩, x,
        (mem_star_charClass cs x).mpr (fun c' hc' => h c' (List.mem_cons_of_mem _ hc')), rfl⟩

theorem mem_digitChars (c : Char) : c ∈ digitChars ↔ c.isDigit = true := by
  constructor
  · intro h
    simp only [digitChars, List.mem_cons, List.mem_singleton, List.not_mem_nil, or_false] at h
    rcases h with h | h | h | h | h | h | h | h | h | h <;> (subst h; decide)
  · intro h
    have h1 : 48 ≤ c.toNat ∧ c.toNat ≤ 57 := by
      simpa [Char.isDigit, Char.toNat, UInt32.le_def, Nat.le_antisymm_iff] using h
    obtain ⟨hlo, hhi⟩ := h1
    have hc : c = Char.ofNat c.toNat := (Char.ofNat_toNat c).symm
    rw [hc]
    interval_cases c.toNat <;> decide

theorem mem_lowerChars (c : Char) : c ∈ lowerChars ↔ c.isLower = true := by
  constructor
  · intro h
    simp only [lowerChars, List.mem_cons, List.mem_singleton, List.not_mem_nil, or_false] at h
    rcases h with h | h | h | h | h | h | h | h | h | h | h | h | h | h | h | h | h | h | h | h
      | h | h | h | h | h | h <;> (subst h; decide)
  · intro h
    have h1 : 97 ≤ c.toNat ∧ c.toNat ≤ 122 := by
      simpa [Char.isLower, Char.toNat, UInt32.le_def, Nat.le_antisymm_iff] using h
    obtain ⟨hlo, hhi⟩ := h1
    have hc : c = Char.ofNat c.toNat := (Char.ofNat_toNat c).symm
    rw [hc]
    interval_cases c.toNat <;> decide

theorem regex_match_dataFormat_iff (line : Str) :
    regex_match line dataFormat = true ↔ ∃ f0 f1 f2 f3, Shape line f0 f1 f2 f3 := by
  unfold regex_match
  rw [RegularExpression.rmatch_iff_matches']
  simp only [dataFormat, RegularExpression.matches'_mul, Language.mem_mul,
    RegularExpression.matches'_char, mem_oneOrMore_charClass, mem_digitChars, mem_lowerChars,
    Shape]
  constructor
  · rintro ⟨a, ⟨a1, ⟨a2, ⟨a3, ⟨a4, ⟨a5, ⟨h5n, h5⟩, c1, hc1, rfl⟩, a6, ⟨h6n, h6⟩, rfl⟩,
      c2, hc2, rfl⟩, a7, ⟨h7n, h7⟩, rfl⟩, c3, hc3, rfl⟩, b, ⟨hbn, hb⟩, rfl⟩
    have e1 : c1 = [','] := hc1
    have e2 : c2 = [','] := hc2
    have e3 : c3 = [','] := hc3
    subst e1 e2 e3
    exact ⟨a5, a6, a7, b, by simp, h5n, h6n, h7n, hbn, h5, h6, h7, hb⟩
  · rintro ⟨f0, f1, f2, f3, rfl, h0n, h1n, h2n, h3n, h0, h1, h2, h3⟩
    exact ⟨_, ⟨_, ⟨_, ⟨_, ⟨_, ⟨f0, ⟨h0n, h0⟩, [','], rfl, rfl⟩, f1, ⟨h1n, h1⟩, rfl⟩,
      [','], rfl, rfl⟩, f2, ⟨h2n, h2⟩, rfl⟩, [','], rfl, rfl⟩, f3, ⟨h3n, h3⟩, by simp⟩

theorem isDigit_iff (c : Char) : c.isDigit = true ↔ 48 ≤ c.toNat ∧ c.toNat ≤ 57 := by
  simp only [Char.isDigit, Char.toNat, UInt32.le_def, ge_iff_le, Bool.and_eq_true, decide_eq_true_eq]
  exact Iff.rfl

theorem isLower_iff (c : Char) : c.isLower = true ↔ 97 ≤ c.toNat ∧ c.toNat ≤ 122 := by
  simp only [Char.isLower, Char.toNat, UInt32.le_def, ge_iff_le, Bool.and_eq_true, decide_eq_true_eq]
  exact Iff.rfl

theorem isUpper_iff (c : Char) : c.isUpper = true ↔ 65 ≤ c.toNat ∧ c.toNat ≤ 90 := by
  simp only [Char.isUpper, Char.toNat, UInt32.le_def, ge_iff_le, Bool.and_eq_true, decide_eq_true_eq]
  exact Iff.rfl

theorem isSpace_toNat (c : Char) (h : isSpace c = true) : c.toNat ≤ 32 := by
  simp only [isSpace, Bool.or_eq_true, decide_eq_true_eq] at h
  rcases h with ((((h | h) | h) | h) | h) | h <;> (subst h; decide)

theorem comma_not_mem_of_isDigit (f : Str) (h : ∀ c ∈ f, c.isDigit = true) : ',' ∉ f := by
  intro hc
  have := h _ hc
  exact absurd this (by decide)

theorem comma_not_mem_of_isLower (f : Str) (h : ∀ c ∈ f, c.isLower = true) : ',' ∉ f := by
  intro hc
  have := h _ hc
  exact absurd this (by decide)

theorem intercalate_four (f0 f1 f2 f3 : Str) :
    [','].intercalate [f0, f1, f2, f3] = f0 ++ ',' :: (f1 ++ ',' :: (f2 ++ ',' :: f3)) := by
  simp [List.intercalate, List.intersperse]

theorem specValid_iff_shape (line : Str) :
    SpecValid line ↔ ∃ f0 f1 f2 f3, Shape line f0 f1 f2 f3 := by
  constructor
  · rintro ⟨f0, f1, f2, f3, hsplit, h⟩
    refine ⟨f0, f1, f2, f3, ?_, h⟩
    have : [','].intercalate (line.splitOn ',') = line :=
      List.intercalate_splitOn line ','
    rw [hsplit, intercalate_four] at this
    exact this.symm
  · rintro ⟨f0, f1, f2, f3, rfl, h0n, h1n, h2n, h3n, h0, h1, h2, h3⟩
    refine ⟨f0, f1, f2, f3, ?_, h0n, h1n, h2n, h3n, h0, h1, h2, h3⟩
    rw [← intercalate_four]
    apply List.splitOn_intercalate
    · intro l hl
      simp only [List.mem_cons, List.mem_singleton, List.not_mem_nil, or_false] at hl
      rcases hl with rfl | rfl | rfl | rfl
      · exact comma_not_mem_of_isDigit _ h0
      · exact comma_not_mem_of_isLower _ h1
      · exact comma_not_mem_of_isDigit _ h2
      · exact comma_not_mem_of_isDigit _ h3
    · simp

theorem shape_chars (line f0 f1 f2 f3 : Str) (h : Shape line f0 f1 f2 f3) :
    ∀ c ∈ line, c.isDigit = true ∨ c.isLower = true ∨ c = ',' := by
  obtain ⟨rfl, -, -, -, -, h0, h1, h2, h3⟩ := h
  intro c hc
  simp only [List.mem_append, List.mem_cons] at hc
  rcases hc with hc | hc | hc | hc | hc | hc | hc
  · exact Or.inl (h0 c hc)
  · exact Or.inr (Or.inr hc)
  · exact Or.inr (Or.inl (h1 c hc))
  · exact Or.inr (Or.inr hc)
  · exact Or.inl (h2 c hc)
  · exact Or.inr (Or.inr hc)
  · exact Or.inl (h3 c hc)

theorem roundToDouble_small (n : Nat) (h : n < 2 ^ 53) : roundToDouble n = some n := by
  unfold roundToDouble
  rw [if_pos h]

set_option exponentiation.threshold 2048 in
theorem roundToDouble_eq_none_iff (n : Nat) : roundToDouble n = none ↔ DOUBLE_OVERFLOW ≤ n := by
  unfold DOUBLE_OVERFLOW
  by_cases hsmall : n < 2 ^ 53
  · rw [roundToDouble_small n hsmall]
    have : (2:Nat) ^ 53 ≤ 2 ^ 1024 - 2 ^ 970 := by norm_num
    constructor
    · intro h
      exact absurd h (by simp)
    · intro h
      omega
  · have hn : 2 ^ 53 ≤ n := Nat.le_of_not_lt hsmall
    have hn0 : n ≠ 0 := by
      have : 0 < 2 ^ 53 := by norm_num
      omega
    have hL1 : 2 ^ Nat.log 2 n ≤ n := Nat.pow_log_le_self 2 hn0
    have hL2 : n < 2 ^ (Nat.log 2 n + 1) := Nat.lt_pow_succ_log_self (by norm_num) n
    have hL53 : 53 ≤ Nat.log 2 n := (Nat.pow_le_iff_le_log (by norm_num) hn0).mp hn
    obtain ⟨e, he⟩ : ∃ e, Nat.log 2 n = e + 53 := ⟨Nat.log 2 n - 53, by omega⟩
    have hsub : Nat.log2 n - 52 = e + 1 := by
      rw [Nat.log2_eq_log_two, he]
      omega
    have hlo : 2 ^ 52 * 2 ^ (e + 1) ≤ n := by
      rw [← pow_add]
      have : 52 + (e + 1) = Nat.log 2 n := by omega
      rw [this]
      exact hL1
    have hhi : n < 2 ^ 53 * 2 ^ (e + 1) := by
      rw [← pow_add]
      have : 53 + (e + 1) = Nat.log 2 n + 1 := by omega
      rw [this]
      exact hL2
    have hPpos : 0 < 2 ^ (e + 1) := Nat.two_pow_pos _
    have hq1 : 2 ^ 52 ≤ n / 2 ^ (e + 1) := (Nat.le_div_iff_mul_le hPpos).mpr hlo
    have hq2 : n / 2 ^ (e + 1) < 2 ^ 53 := (Nat.div_lt_iff_lt_mul hPpos).mpr hhi
    have hdm : 2 ^ (e + 1) * (n / 2 ^ (e + 1)) + n % 2 ^ (e + 1) = n := Nat.div_add_mod n _
    have hr : n % 2 ^ (e + 1) < 2 ^ (e + 1) := Nat.mod_lt _ hPpos
    have hhalf : (2:Nat) ^ (e + 1) = 2 * 2 ^ e := by rw [pow_succ]; ring
    simp only [roundToDouble, hsmall, if_false, hsub, Nat.add_sub_cancel]
    generalize hq : n / 2 ^ (e + 1) = q at *
    generalize hrr : n % 2 ^ (e + 1) = r at *
    set m := if r < 2 ^ e then q else if 2 ^ e < r then q + 1 else if q % 2 = 0 then q else q + 1
      with hm
    have hmq : q ≤ m ∧ m ≤ q + 1 := by
      rw [hm]
      split_ifs <;> omega
    rcases Nat.lt_trichotomy e 970 with hlt | heq | hgt
    · -- the exponent is small: the rounded value is below 2^1024
      have hP : 2 ^ (e + 1) ≤ 2 ^ 970 := Nat.pow_le_pow_right (by norm_num) (by omega)
      have hv : m * 2 ^ (e + 1) < 2 ^ 1024 := by
        calc m * 2 ^ (e + 1) ≤ 2 ^ 53 * 2 ^ 970 := Nat.mul_le_mul (by omega) hP
          _ < 2 ^ 1024 := by norm_num
      have hnT : n < 2 ^ 1024 - 2 ^ 970 := by
        calc n < 2 ^ 53 * 2 ^ (e + 1) := hhi
          _ ≤ 2 ^ 53 * 2 ^ 970 := Nat.mul_le_mul_left _ hP
          _ ≤ 2 ^ 1024 - 2 ^ 970 := by norm_num
      simp only [hv, if_true]
      constructor
      · intro h
        exact absurd h (by simp)
      · intro h
        omega
    · -- the top binade
      subst heq
      have hiff : m * 2 ^ 971 < 2 ^ 1024 ↔ n < 2 ^ 1024 - 2 ^ 970 := by
        have hm' : (m = q ∧ r < 2 ^ 970) ∨ (m = q + 1 ∧ 2 ^ 970 < r)
            ∨ (m = q ∧ r = 2 ^ 970 ∧ q % 2 = 0) ∨ (m = q + 1 ∧ r = 2 ^ 970 ∧ q % 2 = 1) := by
          rw [hm]
          split_ifs <;> omega
        norm_num at hq1 hq2 hdm hr hm' ⊢
        omega
      by_cases hv : m * 2 ^ 971 < 2 ^ 1024
      · simp only [hv, if_true]
        constructor
        · intro h
          exact absurd h (by simp)
        · intro h
          have := hiff.mp hv
          omega
      · simp only [hv, if_false, true_iff]
        have := mt hiff.mpr hv
        omega
    · -- the exponent is large: already the truncated value reaches 2^1024
      have hP : 2 ^ 972 ≤ 2 ^ (e + 1) := Nat.pow_le_pow_right (by norm_num) (by omega)
      have hv : ¬ m * 2 ^ (e + 1) < 2 ^ 1024 := by
        have : 2 ^ 1024 ≤ m * 2 ^ (e + 1) := by
          calc 2 ^ 1024 = 2 ^ 52 * 2 ^ 972 := by norm_num
            _ ≤ m * 2 ^ (e + 1) := Nat.mul_le_mul (by omega) hP
        omega
      have hnT : 2 ^ 1024 - 2 ^ 970 ≤ n := by
        calc 2 ^ 1024 - 2 ^ 970 ≤ 2 ^ 52 * 2 ^ 972 := by norm_num
          _ ≤ 2 ^ 52 * 2 ^ (e + 1) := Nat.mul_le_mul_left _ hP
          _ ≤ n := hlo
      simp only [hv, if_false, true_iff]
      exact hnT

/-! ## Lemmas on `GetNext` -/

theorem getline_append (delim : Char) (f rest : Str) (h : delim ∉ f) :
    getline delim (f ++ delim :: rest) = some (f, rest) := by
  induction f with
  | nil => simp [getline]
  | cons c f ih =>
    have hc : c ≠ delim := fun e => h (e ▸ List.mem_cons_self _ _)
    have hf : delim ∉ f := fun e => h (List.mem_cons_of_mem _ e)
    simp [getline, hc, ih hf]

theorem getline_last (delim : Char) (f : Str) (hne : f ≠ []) (h : delim ∉ f) :
    getline delim f = some (f, []) := by
  induction f with
  | nil => exact absurd rfl hne
  | cons c f ih =>
    have hc : c ≠ delim := fun e => h (e ▸ List.mem_cons_self _ _)
    have hf : delim ∉ f := fun e => h (List.mem_cons_of_mem _ e)
    cases f with
    | nil => simp [getline, hc]
    | cons d f =>
      have := ih (by simp) hf
      rw [getline, if_neg hc, this]

theorem readFields_nil (fuel : Nat) : readFields fuel [] = [] := by
  cases fuel <;> simp [readFields, getline]

theorem readFields_shape (k : Nat) (line f0 f1 f2 f3 : Str) (h : Shape line f0 f1 f2 f3) :
    readFields (k + 4) line = [f0, f1, f2, f3] := by
  obtain ⟨rfl, -, -, -, h3n, h0, h1, h2, h3⟩ := h
  have c0 := comma_not_mem_of_isDigit _ h0
  have c1 := comma_not_mem_of_isLower _ h1
  have c2 := comma_not_mem_of_isDigit _ h2
  have c3 := comma_not_mem_of_isDigit _ h3
  simp [readFields, getline_append _ _ _ c0, getline_append _ _ _ c1, getline_append _ _ _ c2,
    getline_last _ _ h3n c3, readFields_nil]

theorem shape_length (line f0 f1 f2 f3 : Str) (h : Shape line f0 f1 f2 f3) :
    7 ≤ line.length := by
  obtain ⟨rfl, h0n, h1n, h2n, h3n, -⟩ := h
  have l0 := List.length_pos.mpr h0n
  have l1 := List.length_pos.mpr h1n
  have l2 := List.length_pos.mpr h2n
  have l3 := List.length_pos.mpr h3n
  simp only [List.length_append, List.length_cons]
  omega

theorem readFields_line (line f0 f1 f2 f3 : Str) (h : Shape line f0 f1 f2 f3) :
    readFields (line.length + 1) line = [f0, f1, f2, f3] := by
  have hlen := shape_length line f0 f1 f2 f3 h
  obtain ⟨k, hk⟩ : ∃ k, line.length + 1 = k + 4 := ⟨line.length - 3, by omega⟩
  rw [hk]
  exact readFields_shape k line f0 f1 f2 f3 h

theorem stol_digits (ds : Str) (hne : ds ≠ []) (hd : ∀ c ∈ ds, c.isDigit = true) :
    stol ds = if LONG_MAX < (decimalValue ds : Int) then Except.error Fault.outOfRange
      else Except.ok (decimalValue ds : Int) := by
  cases ds with
  | nil => exact absurd rfl hne
  | cons c cs =>
    have hc := hd c (List.mem_cons_self _ _)
    have hcn := (isDigit_iff c).mp hc
    have hsp : isSpace c = false := by
      cases hs : isSpace c with
      | false => rfl
      | true =>
        have := isSpace_toNat c hs
        omega
    have hminus : c ≠ '-' := by
      intro e
      rw [e] at hc
      exact absurd hc (by decide)
    have hplus : c ≠ '+' := by
      intro e
      rw [e] at hc
      exact absurd hc (by decide)
    have htake : (c :: cs).takeWhile Char.isDigit = c :: cs :=
      List.takeWhile_eq_self_iff.mpr hd
    have hdrop : (c :: cs).dropWhile isSpace = c :: cs := by
      simp [List.dropWhile, hsp]
    have hsigned : (match c :: cs with
        | '-' :: rest => (true, rest)
        | '+' :: rest => (false, rest)
        | _ => (false, c :: cs)) = (false, c :: cs) := by
      split
      · next heq => exact absurd (List.cons.inj heq).1 hminus
      · next heq => exact absurd (List.cons.inj heq).1 hplus
      · rfl
    have hnn : ¬ ((decimalValue (c :: cs) : Int) < LONG_MIN) := by
      have : (0 : Int) ≤ (decimalValue (c :: cs) : Int) := Int.natCast_nonneg _
      unfold LONG_MIN
      omega
    unfold stol
    simp only [hdrop, hsigned, htake]
    simp [hnn]

theorem stod_digits (ds : Str) (hne : ds ≠ []) (hd : ∀ c ∈ ds, c.isDigit = true) :
    stod ds = match roundToDouble (decimalValue ds) with
      | some v => Except.ok (v : ℚ)
      | none => Except.error Fault.outOfRange := by
  have hall : ds.all Char.isDigit = true := List.all_eq_true.mpr hd
  unfold stod
  rw [if_pos ⟨hne, hall⟩]

theorem GetNext_shape (it : CDataIterator) (f0 f1 f2 f3 : Str)
    (h : Shape it.line f0 f1 f2 f3) : GetNext it = entryOfFields f0 f1 f2 f3 := by
  have hf := readFields_line it.line f0 f1 f2 f3 h
  obtain ⟨-, h0n, -, h2n, h3n, h0, -, h2, h3⟩ := h
  unfold GetNext entryOfFields
  simp only [hf, fieldAt, List.get?, stol_digits f0 h0n h0, stod_digits f2 h2n h2,
    stod_digits f3 h3n h3]
  by_cases ht : LONG_MAX < (decimalValue f0 : Int)
  · simp [ht]
  · simp only [ht, if_false]
    cases roundToDouble (decimalValue f2) with
    | none => rfl
    | some q =>
      cases roundToDouble (decimalValue f3) with
      | none => rfl
      | some p => rfl

theorem entryOfFields_ok_iff (f0 f1 f2 f3 : Str) :
    (∃ r, entryOfFields f0 f1 f2 f3 = Except.ok r)
      ↔ (decimalValue f0 : Int) ≤ LONG_MAX ∧ decimalValue f2 < DOUBLE_OVERFLOW
          ∧ decimalValue f3 < DOUBLE_OVERFLOW := by
  unfold entryOfFields
  by_cases ht : LONG_MAX < (decimalValue f0 : Int)
  · simp only [ht, if_true]
    constructor
    · rintro ⟨r, hr⟩
      exact absurd hr (by simp)
    · rintro ⟨h, -⟩
      omega
  · simp only [ht, if_false]
    have ht' : (decimalValue f0 : Int) ≤ LONG_MAX := by omega
    cases h2 : roundToDouble (decimalValue f2) with
    | none =>
      have := (roundToDouble_eq_none_iff _).mp h2
      constructor
      · rintro ⟨r, hr⟩
        exact absurd hr (by simp)
      · rintro ⟨-, h, -⟩
        omega
    | some q =>
      have hq : ¬ DOUBLE_OVERFLOW ≤ decimalValue f2 := by
        intro h
        rw [(roundToDouble_eq_none_iff _).mpr h] at h2
        exact absurd h2 (by simp)
      cases h3 : roundToDouble (decimalValue f3) with
      | none =>
        have := (roundToDouble_eq_none_iff _).mp h3
        constructor
        · rintro ⟨r, hr⟩
          exact absurd hr (by simp)
        · rintro ⟨-, -, h⟩
          omega
      | some p =>
        have hp : ¬ DOUBLE_OVERFLOW ≤ decimalValue f3 := by
          intro h
          rw [(roundToDouble_eq_none_iff _).mpr h] at h3
          exact absurd h3 (by simp)
        constructor
        · intro _
          exact ⟨ht', by omega, by omega⟩
        · intro _
          exact ⟨_, rfl⟩

theorem entryOfFields_error (f0 f1 f2 f3 : Str) (f : Fault)
    (h : entryOfFields f0 f1 f2 f3 = Except.error f) : f = Fault.outOfRange := by
  unfold entryOfFields at h
  split_ifs at h with ht
  · exact (Except.error.inj h).symm
  · cases h2 : roundToDouble (decimalValue f2) with
    | none =>
      rw [h2] at h
      exact (Except.error.inj h).symm
    | some q =>
      rw [h2] at h
      cases h3 : roundToDouble (decimalValue f3) with
      | none =>
        rw [h3] at h
        exact (Except.error.inj h).symm
      | some p =>
        rw [h3] at h
        exact absurd h (by simp)

theorem decimalValue_append (ds : Str) (c : Char) :
    decimalValue (ds ++ [c]) = 10 * decimalValue ds + digitValue c := by
  simp [decimalValue, List.foldl_append]

theorem digitValue_ofNat (d : Nat) (h : d < 10) : digitValue (Char.ofNat (48 + d)) = d := by
  interval_cases d <;> rfl

theorem isDigit_ofNat (d : Nat) (h : d < 10) : (Char.ofNat (48 + d)).isDigit = true := by
  interval_cases d <;> rfl

theorem decimalValue_digits (L : List Nat) (h : ∀ d ∈ L, d < 10) :
    decimalValue (L.reverse.map (fun d => Char.ofNat (48 + d))) = Nat.ofDigits 10 L := by
  induction L with
  | nil => rfl
  | cons d L ih =>
    have hd : d < 10 := h d (List.mem_cons_self _ _)
    have hL : ∀ d ∈ L, d < 10 := fun x hx => h x (List.mem_cons_of_mem _ hx)
    rw [List.reverse_cons, List.map_append, List.map_singleton, decimalValue_append, ih hL,
      digitValue_ofNat d hd, Nat.ofDigits_cons]
    ring

theorem decimalValue_decimalDigits (n : Nat) : decimalValue (decimalDigits n) = n := by
  unfold decimalDigits
  split_ifs with h
  · subst h
    rfl
  · rw [decimalValue_digits _ (fun d hd => Nat.digits_lt_base (by norm_num) hd)]
    exact Nat.ofDigits_digits 10 n

theorem decimalDigits_ne_nil (n : Nat) : decimalDigits n ≠ [] := by
  unfold decimalDigits
  split_ifs with h
  · simp
  · have : Nat.digits 10 n ≠ [] := Nat.digits_ne_nil_iff_ne_zero.mpr h
    simpa using this

theorem decimalDigits_isDigit (n : Nat) : ∀ c ∈ decimalDigits n, c.isDigit = true := by
  unfold decimalDigits
  split_ifs with h
  · intro c hc
    rw [List.mem_singleton.mp hc]
    rfl
  · intro c hc
    obtain ⟨d, hd, rfl⟩ := List.mem_map.mp hc
    exact isDigit_ofNat d (Nat.digits_lt_base (by norm_num) (List.mem_reverse.mp hd))

theorem mkLine_shape (t : Nat) (inst : Str) (q p : Nat) (hne : inst ≠ [])
    (hlow : ∀ c ∈ inst, c.isLower = true) :
    Shape (mkLine t inst q p) (decimalDigits t) inst (decimalDigits q) (decimalDigits p) :=
  ⟨rfl, decimalDigits_ne_nil t, hne, decimalDigits_ne_nil q, decimalDigits_ne_nil p,
    decimalDigits_isDigit t, hlow, decimalDigits_isDigit q, decimalDigits_isDigit p⟩

theorem GetNext_mkLine (s : List Str) (t : Nat) (inst : Str) (q p : Nat) (hne : inst ≠ [])
    (hlow : ∀ c ∈ inst, c.isLower = true) :
    GetNext { dataStream := s, line := mkLine t inst q p }
      = entryOfFields (decimalDigits t) inst (decimalDigits q) (decimalDigits p) :=
  GetNext_shape _ _ _ _ _ (mkLine_shape t inst q p hne hlow)

theorem stripReturn_of_valid (line : Str) (h : regex_match line dataFormat = true) :
    stripReturn line = Except.ok line := by
  obtain ⟨f0, f1, f2, f3, hs⟩ := (regex_match_dataFormat_iff line).mp h
  have hchars := shape_chars line f0 f1 f2 f3 hs
  have hlen := shape_length line f0 f1 f2 f3 hs
  unfold stripReturn
  cases hl : line.getLast? with
  | none =>
    rw [List.getLast?_eq_none_iff] at hl
    rw [hl] at hlen
    simp at hlen
  | some c =>
    have hc : c ∈ line := List.mem_of_getLast?_eq_some hl
    have hcr : c ≠ '\r' := by
      intro e
      rcases hchars c hc with g | g | g
      · rw [e] at g
        exact absurd g (by decide)
      · rw [e] at g
        exact absurd g (by decide)
      · rw [e] at g
        exact absurd g (by decide)
    simp [hcr]

theorem roundToDouble_two_pow_53_succ :
    roundToDouble 9007199254740993 = some 9007199254740992 := by
  have hlog : Nat.log2 9007199254740993 = 53 := by
    rw [Nat.log2_eq_log_two]
    exact Nat.log_eq_of_pow_le_of_lt_pow (by norm_num) (by norm_num)
  unfold roundToDouble
  rw [hlog]
  norm_num

/-! ## Lemmas on the ingest loop -/

theorem GetNext_line (it : CDataIterator) :
    GetNext it = GetNext { dataStream := [], line := it.line } := rfl

theorem ingestLoop_eq_processLines (lines : List Str) :
    ∀ (fuel : Nat) (l0 : Str) (tradeMgr : CTradeDataMgr) (clog : List Str),
      lines.length < fuel →
      ingestLoop fuel { dataStream := lines, line := l0 } tradeMgr clog
        = some (processLines lines tradeMgr clog) := by
  induction lines with
  | nil =>
    intro fuel l0 tradeMgr clog hfuel
    cases fuel with
    | zero => exact absurd hfuel (by simp)
    | succ f => simp [ingestLoop, HasNext, hasNextLoop, processLines]
  | cons raw rest ih =>
    intro fuel l0 tradeMgr clog hfuel
    cases fuel with
    | zero => exact absurd hfuel (by simp)
    | succ f =>
      have hf : rest.length < f := by
        simp only [List.length_cons] at hfuel
        omega
      cases hstrip : stripReturn raw with
      | error e => simp [ingestLoop, HasNext, hasNextLoop, processLines, hstrip]
      | ok line =>
        by_cases hvalid : regex_match line dataFormat = true
        · cases hget : GetNext { dataStream := rest, line := line } with
          | error e =>
            simp [ingestLoop, HasNext, hasNextLoop, processLines, hstrip, hvalid, hget]
          | ok dataEntry =>
            simp [ingestLoop, HasNext, hasNextLoop, processLines, hstrip, hvalid, hget,
              ih f line _ clog hf]
        · have hnext := ih (f + 1) line tradeMgr (clog ++ [skipMessage ++ line]) (by omega)
          simp only [ingestLoop, HasNext] at hnext
          simp only [ingestLoop, HasNext, hasNextLoop, processLines, hstrip, hvalid]
          exact hnext

theorem ingest_eq_processLines (tradeMgr : CTradeDataMgr) (lines : List Str) :
    ingest tradeMgr lines = some (processLines lines tradeMgr []) :=
  ingestLoop_eq_processLines lines _ _ _ _ (Nat.lt_succ_self _)

theorem processLines_append (pre post : List Str) :
    ∀ (tradeMgr : CTradeDataMgr) (clog : List Str),
      processLines (pre ++ post) tradeMgr clog
        = match processLines pre tradeMgr clog with
          | Except.error f => Except.error f
          | Except.ok (tradeMgr', clog') => processLines post tradeMgr' clog' := by
  induction pre with
  | nil =>
    intro tradeMgr clog
    simp [processLines]
  | cons raw rest ih =>
    intro tradeMgr clog
    cases hstrip : stripReturn raw with
    | error e => simp [processLines, hstrip]
    | ok line =>
      by_cases hvalid : regex_match line dataFormat = true
      · cases hget : GetNext { dataStream := rest, line := line } with
        | error e =>
          have hget' : GetNext { dataStream := rest ++ post, line := line } = Except.error e :=
            hget
          simp [processLines, hstrip, hvalid, hget, hget']
        | ok dataEntry =>
          have hget' : GetNext { dataStream := rest ++ post, line := line }
              = Except.ok dataEntry := hget
          simp [processLines, hstrip, hvalid, hget, hget', ih]
      · simp [processLines, hstrip, hvalid, ih]

/-- Lines of the expected shape on which `GetNext` succeeds are all ingested, in order, and
leave `clog` as it was. -/
theorem processLines_valid (lines : List Str)
    (hvalid : ∀ l ∈ lines, regex_match l dataFormat = true)
    (hparse : ∀ l ∈ lines, ∃ r, GetNext { dataStream := [], line := l } = Except.ok r) :
    ∃ entries : List TDataEntry, ∀ (tradeMgr : CTradeDataMgr) (clog : List Str),
      processLines lines tradeMgr clog = Except.ok (addAll tradeMgr entries, clog) := by
  induction lines with
  | nil => exact ⟨[], fun tradeMgr clog => rfl⟩
  | cons raw rest ih =>
    have hv := hvalid raw (List.mem_cons_self _ _)
    obtain ⟨r, hr⟩ := hparse raw (List.mem_cons_self _ _)
    obtain ⟨entries, hrest⟩ := ih (fun l hl => hvalid l (List.mem_cons_of_mem _ hl))
      (fun l hl => hparse l (List.mem_cons_of_mem _ hl))
    refine ⟨r :: entries, fun tradeMgr clog => ?_⟩
    have hget : GetNext { dataStream := rest, line := raw } = Except.ok r := hr
    simp [processLines, stripReturn_of_valid raw hv, hv, hget, hrest, addAll]

theorem processLines_malformed (m line : Str) (rest : List Str) (tradeMgr : CTradeDataMgr)
    (clog : List Str) (hm : stripReturn m = Except.ok line)
    (hbad : regex_match line dataFormat = false) :
    processLines (m :: rest) tradeMgr clog
      = processLines rest tradeMgr (clog ++ [skipMessage ++ line]) := by
  simp [processLines, hm, hbad]

/-- Whatever a successful run ingested: the manager at the end is the one at the start fed the
entries `GetNext` returned for the accepted lines. -/
theorem processLines_ok (lines : List Str) :
    ∀ (tradeMgr tradeMgr' : CTradeDataMgr) (clog clog' : List Str),
      processLines lines tradeMgr clog = Except.ok (tradeMgr', clog') →
      ∃ entries : List TDataEntry, tradeMgr' = addAll tradeMgr entries
        ∧ ∀ e ∈ entries, ∃ raw ∈ lines, ∃ line, stripReturn raw = Except.ok line
            ∧ regex_match line dataFormat = true
            ∧ GetNext { dataStream := [], line := line } = Except.ok e := by
  induction lines with
  | nil =>
    intro tradeMgr tradeMgr' clog clog' h
    simp only [processLines, Except.ok.injEq, Prod.mk.injEq] at h
    exact ⟨[], h.1.symm, by simp⟩
  | cons raw rest ih =>
    intro tradeMgr tradeMgr' clog clog' h
    cases hstrip : stripReturn raw with
    | error e => simp [processLines, hstrip] at h
    | ok line =>
      by_cases hvalid : regex_match line dataFormat = true
      · cases hget : GetNext { dataStream := rest, line := line } with
        | error e => simp [processLines, hstrip, hvalid, hget] at h
        | ok dataEntry =>
          simp only [processLines, hstrip, hvalid, hget, if_true] at h
          obtain ⟨entries, he, hall⟩ := ih _ _ _ _ h
          refine ⟨dataEntry :: entries, by simpa [addAll] using he, ?_⟩
          intro e he'
          rcases List.mem_cons.mp he' with rfl | hmem
          · exact ⟨raw, List.mem_cons_self _ _, line, hstrip, hvalid, hget⟩
          · obtain ⟨raw', hraw', line', h1, h2, h3⟩ := hall e hmem
            exact ⟨raw', List.mem_cons_of_mem _ hraw', line', h1, h2, h3⟩
      · simp only [processLines, hstrip, hvalid] at h
        obtain ⟨entries, he, hall⟩ := ih _ _ _ _ h
        refine ⟨entries, he, ?_⟩
        intro e he'
        obtain ⟨raw', hraw', line', h1, h2, h3⟩ := hall e he'
        exact ⟨raw', List.mem_cons_of_mem _ hraw', line', h1, h2, h3⟩

theorem GetNext_quantity_nonneg (it : CDataIterator) (e : TDataEntry)
    (hvalid : regex_match it.line dataFormat = true) (h : GetNext it = Except.ok e) :
    0 ≤ e.quantity := by
  obtain ⟨f0, f1, f2, f3, hs⟩ := (regex_match_dataFormat_iff it.line).mp hvalid
  rw [GetNext_shape it f0 f1 f2 f3 hs] at h
  unfold entryOfFields at h
  split_ifs at h
  cases h2 : roundToDouble (decimalValue f2) with
  | none =>
    rw [h2] at h
    exact absurd h (by simp)
  | some q =>
    rw [h2] at h
    cases h3 : roundToDouble (decimalValue f3) with
    | none =>
      rw [h3] at h
      exact absurd h (by simp)
    | some p =>
      rw [h3] at h
      have := Except.ok.inj h
      rw [← this]
      exact Nat.cast_nonneg q

theorem runAggregate_totalVolume_pos (rs : List TDataEntry) (a : TInstTradeData)
    (ha : 0 < a.totalVolume) (h : ∀ r ∈ rs, 0 ≤ r.quantity) :
    0 < (runAggregate a rs).totalVolume := by
  rw [runAggregate_totalVolume]
  have : 0 ≤ (rs.map (fun r => r.quantity)).sum := by
    apply List.sum_nonneg
    intro x hx
    obtain ⟨r, hr, rfl⟩ := List.mem_map.mp hx
    exact h r hr
  linarith

/-! ## The range of `long` -/

/-- The difference of two timestamps in `[0, LONG_MAX]` is itself a `long`: the subtraction
of `addDataEntry` does not overflow on them. -/
theorem long_sub_in_range (a b : Int) (ha0 : 0 ≤ a) (ha : a ≤ LONG_MAX) (hb0 : 0 ≤ b)
    (hb : b ≤ LONG_MAX) : LONG_MIN ≤ a - b ∧ a - b ≤ LONG_MAX := by
  unfold LONG_MIN LONG_MAX at *
  omega

/-- Every timestamp `GetNext` returns for an accepted line lies in `[0, LONG_MAX]`. -/
theorem GetNext_timestamp_range (it : CDataIterator) (e : TDataEntry)
    (hvalid : regex_match it.line dataFormat = true) (h : GetNext it = Except.ok e) :
    0 ≤ e.timestamp ∧ e.timestamp ≤ LONG_MAX := by
  obtain ⟨f0, f1, f2, f3, hs⟩ := (regex_match_dataFormat_iff it.line).mp hvalid
  rw [GetNext_shape it f0 f1 f2 f3 hs] at h
  unfold entryOfFields at h
  split_ifs at h with ht
  cases h2 : roundToDouble (decimalValue f2) with
  | none =>
    rw [h2] at h
    exact absurd h (by simp)
  | some q =>
    rw [h2] at h
    cases h3 : roundToDouble (decimalValue f3) with
    | none =>
      rw [h3] at h
      exact absurd h (by simp)
    | some p =>
      rw [h3] at h
      have := Except.ok.inj h
      rw [← this]
      exact ⟨Int.natCast_nonneg _, by simpa using ht⟩

/-! ## The fuel of `readFields` -/

theorem getline_length (delim : Char) (ss field rest : Str)
    (h : getline delim ss = some (field, rest)) : rest.length < ss.length := by
  induction ss generalizing field rest with
  | nil => simp [getline] at h
  | cons c cs ih =>
    by_cases hc : c = delim
    · simp only [getline, hc, if_true, Option.some.injEq, Prod.mk.injEq] at h
      rw [← h.2]
      simp
    · cases hg : getline delim cs with
      | none =>
        simp only [getline, hc, if_false, hg, Option.some.injEq, Prod.mk.injEq] at h
        rw [← h.2]
        simp
      | some fr =>
        obtain ⟨f', r'⟩ := fr
        simp only [getline, hc, if_false, hg, Option.some.injEq, Prod.mk.injEq] at h
        have := ih f' r' hg
        rw [← h.2]
        simp only [List.length_cons]
        omega

/-- One turn more than the stream has characters is enough fuel: with that much, the fields
`readFields` returns no longer depend on the fuel. -/
theorem readFields_fuel (n : Nat) :
    ∀ (ss : Str) (fuel₁ fuel₂ : Nat), ss.length ≤ n → ss.length < fuel₁ → ss.length < fuel₂ →
      readFields fuel₁ ss = readFields fuel₂ ss := by
  induction n with
  | zero =>
    intro ss fuel₁ fuel₂ hn _ _
    have : ss = [] := List.length_eq_zero.mp (Nat.le_zero.mp hn)
    subst this
    rw [readFields_nil, readFields_nil]
  | succ n ih =>
    intro ss fuel₁ fuel₂ hn h1 h2
    cases fuel₁ with
    | zero => exact absurd h1 (by simp)
    | succ f₁ =>
      cases fuel₂ with
      | zero => exact absurd h2 (by simp)
      | succ f₂ =>
        cases hg : getline ',' ss with
        | none => simp [readFields, hg]
        | some fr =>
          obtain ⟨field, rest⟩ := fr
          have hlen := getline_length ',' ss field rest hg
          simp only [readFields, hg]
          rw [ih rest f₁ f₂ (by omega) (by omega) (by omega)]

/-! ## Lemmas on the order of the keys -/

theorem toNat_injective (a b : Char) (h : a.toNat = b.toNat) : a = b := by
  rw [← Char.ofNat_toNat a, ← Char.ofNat_toNat b, h]

theorem strLt_irrefl (a : Str) : strLt a a = false := by
  induction a with
  | nil => rfl
  | cons c cs ih => simp [strLt, ih]

theorem strLt_trans (a b c : Str) (hab : strLt a b = true) (hbc : strLt b c = true) :
    strLt a c = true := by
  induction a generalizing b c with
  | nil =>
    cases b with
    | nil => simp [strLt] at hab
    | cons y ys =>
      cases c with
      | nil => simp [strLt] at hbc
      | cons z zs => simp [strLt]
  | cons x xs ih =>
    cases b with
    | nil => simp [strLt] at hab
    | cons y ys =>
      cases c with
      | nil => simp [strLt] at hbc
      | cons z zs =>
        simp only [strLt] at hab hbc ⊢
        by_cases h1 : x.toNat < y.toNat
        · by_cases h2 : y.toNat < z.toNat
          · have : x.toNat < z.toNat := by omega
            simp [this]
          · simp only [h2, if_false] at hbc
            by_cases h3 : z.toNat < y.toNat
            · simp [h3] at hbc
            · have : x.toNat < z.toNat := by omega
              simp [this]
        · simp only [h1, if_false] at hab
          by_cases h1' : y.toNat < x.toNat
          · simp [h1'] at hab
          · simp only [h1', if_false] at hab
            have hxy : x.toNat = y.toNat := by omega
            by_cases h2 : y.toNat < z.toNat
            · have : x.toNat < z.toNat := by omega
              simp [this]
            · simp only [h2, if_false] at hbc
              by_cases h3 : z.toNat < y.toNat
              · simp [h3] at hbc
              · simp only [h3, if_false] at hbc
                have hn1 : ¬ x.toNat < z.toNat := by omega
                have hn2 : ¬ z.toNat < x.toNat := by omega
                simp only [hn1, hn2, if_false]
                exact ih ys zs hab hbc

theorem strLt_total (a b : Str) (hne : a ≠ b) (h : strLt a b = false) : strLt b a = true := by
  induction a generalizing b with
  | nil =>
    cases b with
    | nil => exact absurd rfl hne
    | cons y ys => simp [strLt] at h
  | cons x xs ih =>
    cases b with
    | nil => simp [strLt]
    | cons y ys =>
      simp only [strLt] at h ⊢
      by_cases h1 : x.toNat < y.toNat
      · simp [h1] at h
      · simp only [h1, if_false] at h
        by_cases h2 : y.toNat < x.toNat
        · simp [h2]
        · simp only [h2, if_false] at h ⊢
          have hxy : x = y := toNat_injective x y (by omega)
          subst hxy
          simp only [lt_irrefl, if_false]
          exact ih ys (fun e => hne (by rw [e])) h

theorem mem_keysOf_mapSet (k k₁ : Str) (v : TInstTradeData) (m : TradeMap) :
    k₁ ∈ keysOf (mapSet k v m) ↔ k₁ = k ∨ k₁ ∈ keysOf m := by
  induction m with
  | nil => simp [mapSet, keysOf]
  | cons kv rest ih =>
    obtain ⟨k', v'⟩ := kv
    by_cases h : k' = k
    · subst h
      simp [mapSet, keysOf]
    · cases hlt : strLt k k' with
      | true => simp [mapSet, keysOf, h, hlt]
      | false =>
        have hunf : mapSet k v ((k', v') :: rest) = (k', v') :: mapSet k v rest := by
          simp [mapSet, h, hlt]
        have hk : keysOf ((k', v') :: mapSet k v rest) = k' :: keysOf (mapSet k v rest) := rfl
        have hk' : keysOf ((k', v') :: rest) = k' :: keysOf rest := rfl
        rw [hunf, hk, hk', List.mem_cons, List.mem_cons, ih]
        tauto

theorem ascending_cons (k : Str) (v : TInstTradeData) (m : TradeMap) :
    Ascending ((k, v) :: m) ↔ (∀ x ∈ keysOf m, strLt k x = true) ∧ Ascending m := by
  unfold Ascending
  have hk : keysOf ((k, v) :: m) = k :: keysOf m := rfl
  rw [hk, List.pairwise_cons]

theorem mapSet_ascending (k : Str) (v : TInstTradeData) (m : TradeMap) (h : Ascending m) :
    Ascending (mapSet k v m) := by
  induction m with
  | nil =>
    have hunf : mapSet k v [] = [(k, v)] := rfl
    rw [hunf, ascending_cons]
    exact ⟨fun x hx => absurd hx (by simp [keysOf]), h⟩
  | cons kv rest ih =>
    obtain ⟨k', v'⟩ := kv
    obtain ⟨hhead, hrest⟩ := (ascending_cons k' v' rest).mp h
    by_cases he : k' = k
    · subst he
      have hunf : mapSet k' v ((k', v') :: rest) = (k', v) :: rest := by
        simp [mapSet]
      rw [hunf, ascending_cons]
      exact ⟨hhead, hrest⟩
    · cases hlt : strLt k k' with
      | true =>
        have hunf : mapSet k v ((k', v') :: rest) = (k, v) :: (k', v') :: rest := by
          simp [mapSet, he, hlt]
        rw [hunf, ascending_cons]
        refine ⟨?_, h⟩
        intro x hx
        have hk' : keysOf ((k', v') :: rest) = k' :: keysOf rest := rfl
        rw [hk', List.mem_cons] at hx
        rcases hx with rfl | hx
        · exact hlt
        · exact strLt_trans k k' x hlt (hhead x hx)
      | false =>
        have hgt : strLt k' k = true := strLt_total k k' (fun e => he e.symm) hlt
        have hunf : mapSet k v ((k', v') :: rest) = (k', v') :: mapSet k v rest := by
          simp [mapSet, he, hlt]
        rw [hunf, ascending_cons]
        refine ⟨?_, ih hrest⟩
        intro x hx
        rcases (mem_keysOf_mapSet k x v rest).mp hx with rfl | hx'
        · exact hgt
        · exact hhead x hx'

theorem mapFind_isSome_iff (k : Str) (m : TradeMap) :
    (mapFind k m).isSome = true ↔ k ∈ keysOf m := by
  induction m with
  | nil => simp [mapFind, keysOf]
  | cons kv rest ih =>
    obtain ⟨k', v'⟩ := kv
    by_cases h : k' = k
    · subst h
      simp [mapFind, keysOf]
    · have h' : ¬ k = k' := fun e => h e.symm
      simp only [keysOf] at ih
      simp [mapFind, keysOf, h, h', ih]

theorem ascending_nodup (m : TradeMap) (h : Ascending m) : (keysOf m).Nodup := by
  unfold Ascending at h
  refine List.Pairwise.imp ?_ h
  intro a b hab e
  subst e
  rw [strLt_irrefl] at hab
  exact absurd hab (by simp)

theorem addDataEntry_ascending (mgr : CTradeDataMgr) (r : TDataEntry)
    (h : Ascending mgr.tradeDataLookup) : Ascending (addDataEntry mgr r).tradeDataLookup := by
  unfold addDataEntry
  cases mapFind r.instrument mgr.tradeDataLookup with
  | none => exact mapSet_ascending _ _ _ h
  | some a => exact mapSet_ascending _ _ _ h

theorem mem_keysOf_addDataEntry (mgr : CTradeDataMgr) (r : TDataEntry) (k : Str) :
    k ∈ keysOf (addDataEntry mgr r).tradeDataLookup
      ↔ k = r.instrument ∨ k ∈ keysOf mgr.tradeDataLookup := by
  unfold addDataEntry
  cases mapFind r.instrument mgr.tradeDataLookup with
  | none => exact mem_keysOf_mapSet _ _ _ _
  | some a => exact mem_keysOf_mapSet _ _ _ _

theorem addAll_ascending (entries : List TDataEntry) (mgr : CTradeDataMgr)
    (h : Ascending mgr.tradeDataLookup) : Ascending (addAll mgr entries).tradeDataLookup := by
  induction entries generalizing mgr with
  | nil => exact h
  | cons r rest ih => exact ih (addDataEntry mgr r) (addDataEntry_ascending mgr r h)

theorem mem_keysOf_addAll (entries : List TDataEntry) (mgr : CTradeDataMgr) (k : Str) :
    k ∈ keysOf (addAll mgr entries).tradeDataLookup
      ↔ k ∈ keysOf mgr.tradeDataLookup ∨ k ∈ entries.map (fun r => r.instrument) := by
  induction entries generalizing mgr with
  | nil => simp [addAll]
  | cons r rest ih =>
    have hstep : addAll mgr (r :: rest) = addAll (addDataEntry mgr r) rest := rfl
    rw [hstep, ih, mem_keysOf_addDataEntry]
    simp only [List.map_cons, List.mem_cons]
    tauto

theorem addAll_presenter (entries : List TDataEntry) (mgr : CTradeDataMgr) :
    (addAll mgr entries).presenter = mgr.presenter := by
  induction entries generalizing mgr with
  | nil => rfl
  | cons r rest ih =>
    have hstep : addAll mgr (r :: rest) = addAll (addDataEntry mgr r) rest := rfl
    rw [hstep, ih]
    unfold addDataEntry
    cases mapFind r.instrument mgr.tradeDataLookup <;> rfl

theorem init_ascending : Ascending CTradeDataMgr.init.tradeDataLookup :=
  List.Pairwise.nil

/-! ## Lemmas on `CQuantLabPresenter` -/

theorem CQuantLabPresenter_nil (showDouble : ℚ → Str) (out : Str) :
    CQuantLabPresenter showDouble out [] = Except.ok out := rfl

theorem CQuantLabPresenter_cons (showDouble : ℚ → Str) (out : Str) (p : Str × TInstTradeData)
    (rest : TradeMap) :
    CQuantLabPresenter showDouble out (p :: rest)
      = match presentLine showDouble p with
        | Except.error f => Except.error f
        | Except.ok line => CQuantLabPresenter showDouble (out ++ line) rest := rfl

theorem presentLine_of_average (showDouble : ℚ → Str) (p : Str × TInstTradeData) (n : Int)
    (h : averagePrice p.2 = Except.ok n) :
    presentLine showDouble p
      = Except.ok (p.1 ++ ',' :: (showLong p.2.maxTradeGap ++ ',' ::
          (showDouble p.2.totalVolume ++ ',' :: (showLong n ++ ',' ::
            (showDouble p.2.maxPrice ++ ['\n']))))) := by
  unfold presentLine
  rw [h]

theorem keysOf_length_eq_dedup (entries : List TDataEntry) :
    (addAll CTradeDataMgr.init entries).tradeDataLookup.length
      = ((entries.map (fun r => r.instrument)).dedup).length := by
  have hnodup := ascending_nodup _ (addAll_ascending entries CTradeDataMgr.init init_ascending)
  have hmem : ∀ k, k ∈ keysOf (addAll CTradeDataMgr.init entries).tradeDataLookup
      ↔ k ∈ (entries.map (fun r => r.instrument)).dedup := by
    intro k
    rw [mem_keysOf_addAll, List.mem_dedup]
    simp [keysOf, CTradeDataMgr.init]
  have hperm := (List.perm_ext_iff_of_nodup hnodup (List.nodup_dedup _)).mpr hmem
  have hlen := hperm.length_eq
  simpa [keysOf] using hlen

/-! ## Lemmas on the keys after a run -/

theorem splitOn_shape (line f0 f1 f2 f3 : Str) (h : Shape line f0 f1 f2 f3) :
    line.splitOn ',' = [f0, f1, f2, f3] := by
  obtain ⟨rfl, -, -, -, -, h0, h1, h2, h3⟩ := h
  rw [← intercalate_four]
  apply List.splitOn_intercalate
  · intro l hl
    simp only [List.mem_cons, List.mem_singleton, List.not_mem_nil, or_false] at hl
    rcases hl with rfl | rfl | rfl | rfl
    · exact comma_not_mem_of_isDigit _ h0
    · exact comma_not_mem_of_isLower _ h1
    · exact comma_not_mem_of_isDigit _ h2
    · exact comma_not_mem_of_isDigit _ h3
  · simp

theorem entryOfFields_instrument (f0 f1 f2 f3 : Str) (e : TDataEntry)
    (h : entryOfFields f0 f1 f2 f3 = Except.ok e) : e.instrument = f1 := by
  unfold entryOfFields at h
  split_ifs at h
  cases h2 : roundToDouble (decimalValue f2) with
  | none =>
    rw [h2] at h
    exact absurd h (by simp)
  | some q =>
    rw [h2] at h
    cases h3 : roundToDouble (decimalValue f3) with
    | none =>
      rw [h3] at h
      exact absurd h (by simp)
    | some p =>
      rw [h3] at h
      rw [← Except.ok.inj h]

theorem acceptedInstrument_of_GetNext (raw line : Str) (rest : List Str) (e : TDataEntry)
    (hstrip : stripReturn raw = Except.ok line) (hvalid : regex_match line dataFormat = true)
    (hget : GetNext { dataStream := rest, line := line } = Except.ok e) :
    acceptedInstrument raw = some e.instrument := by
  obtain ⟨f0, f1, f2, f3, hs⟩ := (regex_match_dataFormat_iff line).mp hvalid
  rw [GetNext_shape _ f0 f1 f2 f3 hs] at hget
  have hi := entryOfFields_instrument f0 f1 f2 f3 e hget
  unfold acceptedInstrument
  simp only [hstrip, hvalid, if_true, splitOn_shape line f0 f1 f2 f3 hs, hi]
  rfl

/-- A successful run fed the manager one entry for each accepted line, in input order. -/
theorem processLines_instruments (lines : List Str) :
    ∀ (tradeMgr tradeMgr' : CTradeDataMgr) (clog clog' : List Str),
      processLines lines tradeMgr clog = Except.ok (tradeMgr', clog') →
      ∃ entries : List TDataEntry, tradeMgr' = addAll tradeMgr entries
        ∧ entries.map (fun r => r.instrument) = acceptedInstruments lines := by
  induction lines with
  | nil =>
    intro tradeMgr tradeMgr' clog clog' h
    simp only [processLines, Except.ok.injEq, Prod.mk.injEq] at h
    exact ⟨[], h.1.symm, rfl⟩
  | cons raw rest ih =>
    intro tradeMgr tradeMgr' clog clog' h
    cases hstrip : stripReturn raw with
    | error e => simp [processLines, hstrip] at h
    | ok line =>
      by_cases hvalid : regex_match line dataFormat = true
      · cases hget : GetNext { dataStream := rest, line := line } with
        | error e => simp [processLines, hstrip, hvalid, hget] at h
        | ok dataEntry =>
          simp only [processLines, hstrip, hvalid, hget, if_true] at h
          obtain ⟨entries, he, hmap⟩ := ih _ _ _ _ h
          refine ⟨dataEntry :: entries, by simpa [addAll] using he, ?_⟩
          have hacc := acceptedInstrument_of_GetNext raw line rest dataEntry hstrip hvalid hget
          simp [acceptedInstruments, List.filterMap_cons, hacc, hmap]
      · simp only [processLines, hstrip, hvalid] at h
        obtain ⟨entries, he, hmap⟩ := ih _ _ _ _ h
        refine ⟨entries, he, ?_⟩
        have hacc : acceptedInstrument raw = none := by
          unfold acceptedInstrument
          simp [hstrip, hvalid]
        simp [acceptedInstruments, List.filterMap_cons, hacc, hmap]

/-! ## Lemmas on the order of the records -/

theorem maxPrice_spec (r : TDataEntry) (rs : List TDataEntry) :
    (∀ x ∈ r :: rs, x.price ≤ (runAggregate (TInstTradeData.ofEntry r) rs).maxPrice)
      ∧ ∃ x ∈ r :: rs, x.price = (runAggregate (TInstTradeData.ofEntry r) rs).maxPrice := by
  obtain ⟨hge, hall⟩ := runAggregate_maxPrice_ge rs (TInstTradeData.ofEntry r)
  constructor
  · intro x hx
    rcases List.mem_cons.mp hx with rfl | hx'
    · exact hge
    · exact hall x hx'
  · rcases runAggregate_maxPrice_attained rs (TInstTradeData.ofEntry r) with h | ⟨x, hx, h⟩
    · exact ⟨r, List.mem_cons_self _ _, h.symm⟩
    · exact ⟨x, List.mem_cons_of_mem _ hx, h⟩

theorem runAggregate_perm (r₁ r₂ : TDataEntry) (rs₁ rs₂ : List TDataEntry)
    (h : (r₁ :: rs₁).Perm (r₂ :: rs₂)) :
    (runAggregate (TInstTradeData.ofEntry r₁) rs₁).totalVolume
        = (runAggregate (TInstTradeData.ofEntry r₂) rs₂).totalVolume
      ∧ (runAggregate (TInstTradeData.ofEntry r₁) rs₁).totalConsideration
        = (runAggregate (TInstTradeData.ofEntry r₂) rs₂).totalConsideration
      ∧ (runAggregate (TInstTradeData.ofEntry r₁) rs₁).maxPrice
        = (runAggregate (TInstTradeData.ofEntry r₂) rs₂).maxPrice := by
  refine ⟨?_, ?_, ?_⟩
  · rw [runAggregate_totalVolume, runAggregate_totalVolume]
    have := (h.map (fun r => r.quantity)).sum_eq
    simpa [TInstTradeData.ofEntry] using this
  · rw [runAggregate_totalConsideration, runAggregate_totalConsideration]
    have := (h.map (fun r => r.price * r.quantity)).sum_eq
    simpa [TInstTradeData.ofEntry] using this
  · obtain ⟨hle₁, x₁, hx₁, he₁⟩ := maxPrice_spec r₁ rs₁
    obtain ⟨hle₂, x₂, hx₂, he₂⟩ := maxPrice_spec r₂ rs₂
    apply le_antisymm
    · rw [← he₁]
      exact hle₂ x₁ (h.mem_iff.mp hx₁)
    · rw [← he₂]
      exact hle₁ x₂ (h.mem_iff.mpr hx₂)

/-! ## Lemmas on the carriage return -/

theorem stripReturn_append_return (L : Str) : stripReturn (L ++ ['\r']) = Except.ok L := by
  unfold stripReturn
  simp

theorem stripReturn_of_ne_nil (L : Str) (hne : L ≠ []) (h : L.getLast? ≠ some '\r') :
    stripReturn L = Except.ok L := by
  unfold stripReturn
  cases hl : L.getLast? with
  | none => exact absurd (List.getLast?_eq_none_iff.mp hl) hne
  | some c =>
    have hc : c ≠ '\r' := by
      intro e
      rw [hl, e] at h
      exact h rfl
    simp [hc]

theorem return_not_valid (L : Str) : regex_match (L ++ ['\r']) dataFormat = false := by
  cases hm : regex_match (L ++ ['\r']) dataFormat with
  | false => rfl
  | true =>
    exfalso
    obtain ⟨f0, f1, f2, f3, hs⟩ := (regex_match_dataFormat_iff _).mp hm
    have := shape_chars _ f0 f1 f2 f3 hs '\r' (by simp)
    rcases this with g | g | g
    · exact absurd g (by decide)
    · exact absurd g (by decide)
    · exact absurd g (by decide)

/-! ## Lemmas on the trade gap and the last trade time -/

theorem runAggregate_lastTradeTime (rs : List TDataEntry) (a : TInstTradeData) :
    (a.lastTradeTime :: rs.map (fun r => r.timestamp)).getLast?
      = some (runAggregate a rs).lastTradeTime := by
  induction rs generalizing a with
  | nil => rfl
  | cons r rest ih =>
    rw [runAggregate_cons, List.map_cons, List.getLast?_cons_cons]
    exact ih (specAggregate (some a) r)

theorem foldl_max_eq_of_le (l : List Int) (b : Int) (h : ∀ d ∈ l, d ≤ b) :
    l.foldl max b = b := by
  induction l with
  | nil => rfl
  | cons d ds ih =>
    have hd : d ≤ b := h d (List.mem_cons_self _ _)
    rw [List.foldl_cons, max_eq_left hd]
    exact ih (fun x hx => h x (List.mem_cons_of_mem _ hx))

/-! ## Lemmas on the average price -/

theorem processLines_clog (lines : List Str) :
    ∀ (tradeMgr tradeMgr' : CTradeDataMgr) (clog clog' : List Str),
      processLines lines tradeMgr clog = Except.ok (tradeMgr', clog') →
      clog' = clog ++ lines.filterMap diagnosticOf := by
  induction lines with
  | nil =>
    intro tradeMgr tradeMgr' clog clog' h
    simp only [processLines, Except.ok.injEq, Prod.mk.injEq] at h
    simp [h.2]
  | cons raw rest ih =>
    intro tradeMgr tradeMgr' clog clog' h
    cases hstrip : stripReturn raw with
    | error e => simp [processLines, hstrip] at h
    | ok line =>
      by_cases hvalid : regex_match line dataFormat = true
      · cases hget : GetNext { dataStream := rest, line := line } with
        | error e => simp [processLines, hstrip, hvalid, hget] at h
        | ok dataEntry =>
          simp only [processLines, hstrip, hvalid, hget, if_true] at h
          have hd : diagnosticOf raw = none := by
            simp [diagnosticOf, hstrip, hvalid]
          rw [ih _ _ _ _ h, List.filterMap_cons, hd]
      · simp only [processLines, hstrip, hvalid] at h
        have hd : diagnosticOf raw = some (skipMessage ++ line) := by
          simp [diagnosticOf, hstrip, hvalid]
        rw [ih _ _ _ _ h, List.filterMap_cons, hd]
        simp

theorem processLines_filter (lines : List Str) :
    ∀ (tradeMgr tradeMgr' : CTradeDataMgr) (clog clog' c0 : List Str),
      processLines lines tradeMgr clog = Except.ok (tradeMgr', clog') →
      processLines (lines.filter isAccepted) tradeMgr c0 = Except.ok (tradeMgr', c0) := by
  induction lines with
  | nil =>
    intro tradeMgr tradeMgr' clog clog' c0 h
    simp only [processLines, Except.ok.injEq, Prod.mk.injEq] at h
    simp [processLines, h.1]
  | cons raw rest ih =>
    intro tradeMgr tradeMgr' clog clog' c0 h
    cases hstrip : stripReturn raw with
    | error e => simp [processLines, hstrip] at h
    | ok line =>
      by_cases hvalid : regex_match line dataFormat = true
      · cases hget : GetNext { dataStream := rest, line := line } with
        | error e => simp [processLines, hstrip, hvalid, hget] at h
        | ok dataEntry =>
          simp only [processLines, hstrip, hvalid, hget, if_true] at h
          have hacc : isAccepted raw = true := by
            simp [isAccepted, hstrip, hvalid]
          have hget' : GetNext { dataStream := List.filter isAccepted rest, line := line }
              = Except.ok dataEntry := hget
          rw [List.filter_cons_of_pos hacc]
          simp only [processLines, hstrip, hvalid, hget', if_true]
          exact ih _ _ _ _ c0 h
      · simp only [processLines, hstrip, hvalid] at h
        have hacc : ¬ isAccepted raw = true := by
          simp [isAccepted, hstrip, hvalid]
        rw [List.filter_cons_of_neg hacc]
        exact ih _ _ _ _ c0 h

theorem main_eq (showDouble : ℚ → Str) (input : List Str) :
    main showDouble input
      = match processLines input
          (setDataPresenter CTradeDataMgr.init (some (CQuantLabPresenter showDouble))) [] with
        | Except.error f => some (Except.error f)
        | Except.ok (tradeMgr, clog) =>
          match presentData tradeMgr [] with
          | Except.error f => some (Except.error f)
          | Except.ok (_, output) => some (Except.ok (output, clog)) := by
  unfold main
  simp only [ingest_eq_processLines]
  cases processLines input
      (setDataPresenter CTradeDataMgr.init (some (CQuantLabPresenter showDouble))) [] with
  | error f => rfl
  | ok res => rfl

/-! ## Claims -/

/-- C2: after any sequence of records fed to an empty engine, the stored `totalVolume` of an
instrument that occurs is the sum of the quantities of its records, and its stored
`totalConsideration` the sum of their price times quantity (exact arithmetic). -/
theorem totals_eq_sums (entries : List TDataEntry) (inst : Str)
    (h : inst ∈ entries.map (fun r => r.instrument)) :
    ∃ a, mapFind inst (addAll CTradeDataMgr.init entries).tradeDataLookup = some a
      ∧ a.totalVolume = ((recordsOf inst entries).map (fun r => r.quantity)).sum
      ∧ a.totalConsideration
          = ((recordsOf inst entries).map (fun r => r.price * r.quantity)).sum := by
  cases hrec : recordsOf inst entries with
  | nil => exact absurd hrec (recordsOf_ne_nil entries inst h)
  | cons r rs =>
    refine ⟨_, aggregateOf_init_addAll entries inst r rs hrec, ?_, ?_⟩
    · rw [runAggregate_totalVolume]
      simp [TInstTradeData.ofEntry]
    · rw [runAggregate_totalConsideration]
      simp [TInstTradeData.ofEntry]

theorem totals_eq_sums_witness :
    (['x', 'y', 'z'] : Str) ∈ scenario2.map (fun r => r.instrument)
      ∧ ∃ a, mapFind ['x', 'y', 'z'] (addAll CTradeDataMgr.init scenario2).tradeDataLookup
            = some a
          ∧ a.totalVolume = ((recordsOf ['x', 'y', 'z'] scenario2).map (fun r => r.quantity)).sum
          ∧ a.totalConsideration
              = ((recordsOf ['x', 'y', 'z'] scenario2).map (fun r => r.price * r.quantity)).sum :=
  ⟨by decide, totals_eq_sums scenario2 ['x', 'y', 'z'] (by decide)⟩

/-- C3: after any sequence of records fed to an empty engine, the stored `maxPrice` of an
instrument that occurs is the maximum price among its records: some record of the instrument
has that price, and no record of the instrument has a higher one. -/
theorem maxPrice_eq_maximum (entries : List TDataEntry) (inst : Str)
    (h : inst ∈ entries.map (fun r => r.instrument)) :
    ∃ a, mapFind inst (addAll CTradeDataMgr.init entries).tradeDataLookup = some a
      ∧ (∃ r ∈ entries, r.instrument = inst ∧ r.price = a.maxPrice)
      ∧ ∀ r ∈ entries, r.instrument = inst → r.price ≤ a.maxPrice := by
  cases hrec : recordsOf inst entries with
  | nil => exact absurd hrec (recordsOf_ne_nil entries inst h)
  | cons r rs =>
    have hmem : ∀ r', r' ∈ r :: rs ↔ r' ∈ entries ∧ r'.instrument = inst := by
      intro r'
      rw [← hrec]
      exact mem_recordsOf entries inst r'
    obtain ⟨hge, hall⟩ := runAggregate_maxPrice_ge rs (TInstTradeData.ofEntry r)
    refine ⟨_, aggregateOf_init_addAll entries inst r rs hrec, ?_, ?_⟩
    · rcases runAggregate_maxPrice_attained rs (TInstTradeData.ofEntry r) with hm | ⟨r', hr', hm⟩
      · obtain ⟨h1, h2⟩ := (hmem r).mp (List.mem_cons_self _ _)
        exact ⟨r, h1, h2, by rw [hm]; rfl⟩
      · obtain ⟨h1, h2⟩ := (hmem r').mp (List.mem_cons_of_mem _ hr')
        exact ⟨r', h1, h2, hm⟩
    · intro r' hr' hi
      rcases List.mem_cons.mp ((hmem r').mpr ⟨hr', hi⟩) with e | e
      · subst e
        exact hge
      · exact hall r' e

theorem maxPrice_eq_maximum_witness :
    (['x', 'y', 'z'] : Str) ∈ scenario2.map (fun r => r.instrument)
      ∧ ∃ a, mapFind ['x', 'y', 'z'] (addAll CTradeDataMgr.init scenario2).tradeDataLookup
            = some a
          ∧ (∃ r ∈ scenario2, r.instrument = ['x', 'y', 'z'] ∧ r.price = a.maxPrice)
          ∧ ∀ r ∈ scenario2, r.instrument = ['x', 'y', 'z'] → r.price ≤ a.maxPrice :=
  ⟨by decide, maxPrice_eq_maximum scenario2 ['x', 'y', 'z'] (by decide)⟩

/-- C4, as stated, fails on the scenario of the specification itself: after `200,xyz,1,1`
then `100,xyz,1,1` the stored `maxTradeGap` of `xyz` is `0`, while the maximum of the
differences between successive timestamps is `100 - 200 = -100`. -/
theorem maxTradeGap_scenario2 :
    (mapFind ['x', 'y', 'z'] (addAll CTradeDataMgr.init scenario2).tradeDataLookup).map
        (fun a => a.maxTradeGap) = some 0
      ∧ specMaxTradeGap (timestampsOf ['x', 'y', 'z'] scenario2) = some (-100) := by
  constructor
  · decide
  · decide

/-- C4, amended: for every sequence of records holding at least two records of an instrument,
the stored `maxTradeGap` of the instrument is the larger of `0` and the maximum of the
differences between the timestamp of each of its records after the first and the timestamp
of the record of the instrument immediately before it. -/
theorem maxTradeGap_eq_max_zero (entries : List TDataEntry) (inst : Str)
    (h : 2 ≤ (recordsOf inst entries).length) :
    ∃ a m, mapFind inst (addAll CTradeDataMgr.init entries).tradeDataLookup = some a
      ∧ specMaxTradeGap (timestampsOf inst entries) = some m
      ∧ a.maxTradeGap = max 0 m := by
  cases hrec : recordsOf inst entries with
  | nil => simp [hrec] at h
  | cons r rs =>
    cases rs with
    | nil => simp [hrec] at h
    | cons r₂ rs =>
      refine ⟨_, (gaps (r₂.timestamp :: rs.map (fun r => r.timestamp))).foldl max
        (r₂.timestamp - r.timestamp), aggregateOf_init_addAll entries inst r (r₂ :: rs) hrec,
        ?_, ?_⟩
      · simp only [specMaxTradeGap, timestampsOf, hrec, List.map_cons, gaps]
        rfl
      · rw [runAggregate_maxTradeGap]
        simp only [TInstTradeData.ofEntry, List.map_cons, gaps, List.foldl_cons]
        exact foldl_max_max _ _ _

theorem maxTradeGap_eq_max_zero_witness :
    2 ≤ (recordsOf ['x', 'y', 'z'] scenario2).length
      ∧ ∃ a m, mapFind ['x', 'y', 'z'] (addAll CTradeDataMgr.init scenario2).tradeDataLookup
            = some a
          ∧ specMaxTradeGap (timestampsOf ['x', 'y', 'z'] scenario2) = some m
          ∧ a.maxTradeGap = max 0 m :=
  ⟨by decide, maxTradeGap_eq_max_zero scenario2 ['x', 'y', 'z'] (by decide)⟩

/-- C5: `maxTradeGap >= 0` is an invariant of the table. Every aggregate stored after any
sequence of `addDataEntry` calls on an empty engine has a non-negative `maxTradeGap`, whatever
the timestamps and their order of arrival. -/
theorem maxTradeGap_nonneg (entries : List TDataEntry) (inst : Str) (a : TInstTradeData)
    (h : mapFind inst (addAll CTradeDataMgr.init entries).tradeDataLookup = some a) :
    0 ≤ a.maxTradeGap := by
  cases hrec : recordsOf inst entries with
  | nil =>
    have hnone := aggregateOf_addAll entries CTradeDataMgr.init inst
    simp only [hrec, List.foldl_nil, aggregateOf, CTradeDataMgr.init, mapFind] at hnone
    have hh := h
    simp only [CTradeDataMgr.init] at hh
    rw [hh] at hnone
    exact absurd hnone (by simp)
  | cons r rs =>
    have hsome := aggregateOf_init_addAll entries inst r rs hrec
    have ha : a = runAggregate (TInstTradeData.ofEntry r) rs := by
      have := h.symm.trans hsome
      exact Option.some.inj this
    rw [ha, runAggregate_maxTradeGap]
    exact foldl_max_ge _ _

theorem maxTradeGap_nonneg_witness :
    mapFind ['x', 'y', 'z'] (addAll CTradeDataMgr.init scenario2).tradeDataLookup
        = some (runAggregate (TInstTradeData.ofEntry (scenario2.get ⟨0, by decide⟩))
            [scenario2.get ⟨1, by decide⟩])
      ∧ 0 ≤ (runAggregate (TInstTradeData.ofEntry (scenario2.get ⟨0, by decide⟩))
            [scenario2.get ⟨1, by decide⟩]).maxTradeGap :=
  ⟨aggregateOf_init_addAll scenario2 ['x', 'y', 'z'] _ _ rfl,
   maxTradeGap_nonneg scenario2 ['x', 'y', 'z'] _
     (aggregateOf_init_addAll scenario2 ['x', 'y', 'z'] _ _ rfl)⟩

/-- C6: the line validator, the full match against `[0-9]+,[a-z]+,[0-9]+,[0-9]+`, accepts a
line exactly when splitting it on commas gives four fields, none empty, the first, third and
fourth of digits only and the second of lowercase letters only. So a line holding a decimal
point, a minus sign, an uppercase letter or white space is rejected, and so is a line with a
fifth field. -/
theorem regex_match_iff_specValid (line : Str) :
    (regex_match line dataFormat = true ↔ SpecValid line)
      ∧ (∀ c ∈ line, (c = '.' ∨ c = '-' ∨ c.isUpper = true ∨ isSpace c = true) →
          regex_match line dataFormat = false)
      ∧ (4 < (line.splitOn ',').length → regex_match line dataFormat = false) := by
  have hiff : regex_match line dataFormat = true ↔ SpecValid line := by
    rw [regex_match_dataFormat_iff, specValid_iff_shape]
  refine ⟨hiff, ?_, ?_⟩
  · intro c hc hbad
    cases hm : regex_match line dataFormat with
    | false => rfl
    | true =>
      exfalso
      obtain ⟨f0, f1, f2, f3, hs⟩ := (regex_match_dataFormat_iff line).mp hm
      have hgood := shape_chars line f0 f1 f2 f3 hs c hc
      rw [isDigit_iff, isLower_iff] at hgood
      have hcomma : c = ',' → c.toNat = 44 := fun e => by rw [e]; rfl
      rcases hbad with e | e | e | e
      · have : c.toNat = 46 := by rw [e]; rfl
        rcases hgood with g | g | g
        · omega
        · omega
        · have := hcomma g
          omega
      · have : c.toNat = 45 := by rw [e]; rfl
        rcases hgood with g | g | g
        · omega
        · omega
        · have := hcomma g
          omega
      · rw [isUpper_iff] at e
        rcases hgood with g | g | g
        · omega
        · omega
        · have := hcomma g
          omega
      · have := isSpace_toNat c e
        rcases hgood with g | g | g
        · omega
        · omega
        · have := hcomma g
          omega
  · intro hlen
    cases hm : regex_match line dataFormat with
    | false => rfl
    | true =>
      exfalso
      obtain ⟨f0, f1, f2, f3, hsplit, -⟩ := hiff.mp hm
      rw [hsplit] at hlen
      simp at hlen

/-- C7, as stated, fails: the line `9223372036854775808,abc,1,1` passes the validity predicate
and `GetNext` ends in `std::out_of_range`, thrown by `stol` on a timestamp of `2^63`. -/
theorem getNext_overflowLine :
    regex_match overflowLine dataFormat = true
      ∧ GetNext { dataStream := [], line := overflowLine } = Except.error Fault.outOfRange := by
  constructor
  · decide
  · rfl

/-- C7, amended: for every line that passes the validity predicate, splitting on commas yields
exactly four fields, so `fields[0..3]` are in bounds; `GetNext` succeeds exactly when the number
in field 0 is at most `LONG_MAX = 2^63 - 1` and the numbers in fields 2 and 3 are below
`2^1024 - 2^970`, where the nearest double stops being finite; and when it fails it does so
with `std::out_of_range`. -/
theorem getNext_of_valid (it : CDataIterator) (h : regex_match it.line dataFormat = true) :
    ∃ f0 f1 f2 f3 : Str, readFields (it.line.length + 1) it.line = [f0, f1, f2, f3]
      ∧ ((∃ r, GetNext it = Except.ok r)
          ↔ (decimalValue f0 : Int) ≤ LONG_MAX ∧ decimalValue f2 < DOUBLE_OVERFLOW
              ∧ decimalValue f3 < DOUBLE_OVERFLOW)
      ∧ ∀ f, GetNext it = Except.error f → f = Fault.outOfRange := by
  obtain ⟨f0, f1, f2, f3, hs⟩ := (regex_match_dataFormat_iff it.line).mp h
  refine ⟨f0, f1, f2, f3, readFields_line it.line f0 f1 f2 f3 hs, ?_, ?_⟩
  · rw [GetNext_shape it f0 f1 f2 f3 hs]
    exact entryOfFields_ok_iff f0 f1 f2 f3
  · intro f hf
    rw [GetNext_shape it f0 f1 f2 f3 hs] at hf
    exact entryOfFields_error f0 f1 f2 f3 f hf

theorem getNext_of_valid_witness :
    regex_match sampleLine dataFormat = true
      ∧ ∃ f0 f1 f2 f3 : Str, readFields (sampleLine.length + 1) sampleLine = [f0, f1, f2, f3]
        ∧ ((∃ r, GetNext { dataStream := [], line := sampleLine } = Except.ok r)
            ↔ (decimalValue f0 : Int) ≤ LONG_MAX ∧ decimalValue f2 < DOUBLE_OVERFLOW
                ∧ decimalValue f3 < DOUBLE_OVERFLOW)
        ∧ ∀ f, GetNext { dataStream := [], line := sampleLine } = Except.error f →
            f = Fault.outOfRange :=
  ⟨by decide, getNext_of_valid { dataStream := [], line := sampleLine } (by decide)⟩

/-- C8, as stated, fails: for `t = 1`, `inst = a`, `q = 2^53 + 1` and `p = 1` the record
`GetNext` returns has quantity `2^53`, the double nearest to `q`, and not `q`. -/
theorem getNext_roundtrip_fails :
    GetNext { dataStream := [], line := mkLine 1 ['a'] 9007199254740993 1 }
        = Except.ok { timestamp := 1, instrument := ['a'],
                      quantity := 9007199254740992, price := 1 }
      ∧ (9007199254740992 : ℚ) ≠ ((9007199254740993 : Nat) : ℚ) := by
  constructor
  · rw [GetNext_mkLine [] 1 ['a'] 9007199254740993 1 (by simp) (by decide)]
    unfold entryOfFields
    simp only [decimalValue_decimalDigits, roundToDouble_two_pow_53_succ,
      roundToDouble_small 1 (by norm_num)]
    norm_num [LONG_MAX]
  · norm_num

/-- C8, amended: for every natural number `t` that fits a signed 64-bit `long`, every
non-empty string `inst` of lowercase letters and all natural numbers `q` and `p` that a double
represents exactly (each is its own nearest double), the line `t,inst,q,p` written in decimal
is accepted by `HasNext`, and `GetNext` returns exactly the record with timestamp `t`,
instrument `inst`, quantity `q` and price `p`. -/
theorem parse_roundtrip (s : List Str) (l0 : Str) (clog : List Str) (t : Nat) (inst : Str)
    (q p : Nat) (ht : (t : Int) ≤ LONG_MAX) (hne : inst ≠ [])
    (hlow : ∀ c ∈ inst, c.isLower = true)
    (hq : roundToDouble q = some q) (hp : roundToDouble p = some p) :
    HasNext { dataStream := mkLine t inst q p :: s, line := l0 } clog
        = Except.ok (true, { dataStream := s, line := mkLine t inst q p }, clog)
      ∧ GetNext { dataStream := s, line := mkLine t inst q p }
        = Except.ok { timestamp := t, instrument := inst, quantity := q, price := p } := by
  have hshape := mkLine_shape t inst q p hne hlow
  have hvalid : regex_match (mkLine t inst q p) dataFormat = true :=
    (regex_match_dataFormat_iff _).mpr ⟨_, _, _, _, hshape⟩
  constructor
  · simp [HasNext, hasNextLoop, stripReturn_of_valid _ hvalid, hvalid]
  · rw [GetNext_mkLine s t inst q p hne hlow]
    unfold entryOfFields
    simp only [decimalValue_decimalDigits, hq, hp]
    rw [if_neg (by omega)]

theorem parse_roundtrip_witness :
    ((100 : Nat) : Int) ≤ LONG_MAX ∧ (['a', 'b', 'c'] : Str) ≠ []
      ∧ (∀ c ∈ (['a', 'b', 'c'] : Str), c.isLower = true)
      ∧ roundToDouble 10 = some 10 ∧ roundToDouble 5 = some 5
      ∧ HasNext { dataStream := [mkLine 100 ['a', 'b', 'c'] 10 5], line := [] } []
          = Except.ok (true, { dataStream := [], line := mkLine 100 ['a', 'b', 'c'] 10 5 }, [])
      ∧ GetNext { dataStream := [], line := mkLine 100 ['a', 'b', 'c'] 10 5 }
          = Except.ok { timestamp := ((100 : Nat) : Int), instrument := ['a', 'b', 'c'],
                        quantity := ((10 : Nat) : ℚ), price := ((5 : Nat) : ℚ) } :=
  ⟨by decide, by simp, by decide, roundToDouble_small 10 (by norm_num),
    roundToDouble_small 5 (by norm_num),
    parse_roundtrip [] [] [] 100 ['a', 'b', 'c'] 10 5 (by decide) (by simp) (by decide)
      (roundToDouble_small 10 (by norm_num)) (roundToDouble_small 5 (by norm_num))⟩

/-- C9, as stated, fails: with the single line `9223372036854775808,abc,1,1`, which passes the
validity predicate, and the malformed line `x` put before it, the driver loop ends in
`std::out_of_range`. -/
theorem ingest_fails_on_valid_line :
    regex_match overflowLine dataFormat = true
      ∧ regex_match ['x'] dataFormat = false
      ∧ ingest CTradeDataMgr.init [['x'], overflowLine]
          = some (Except.error Fault.outOfRange) := by
  refine ⟨by decide, by decide, ?_⟩
  rw [ingest_eq_processLines]
  have h1 : stripReturn ['x'] = Except.ok ['x'] := rfl
  have h2 : regex_match ['x'] dataFormat = false := by decide
  have h3 : regex_match overflowLine dataFormat = true := by decide
  have h4 : GetNext { dataStream := [], line := overflowLine }
      = Except.error Fault.outOfRange := rfl
  rw [processLines_malformed _ _ _ _ _ h1 h2]
  simp [processLines, stripReturn_of_valid _ h3, h3, h4]

/-- C9, amended: for every list of lines that pass the validity predicate and on which
`GetNext` succeeds (their numbers are in range), and every non-empty malformed line `m` (one
that fails the validity predicate once a trailing carriage return is stripped) inserted at
any position, the driver loop over the list with `m` inserted does not fail, ends with the same
manager, hence the same table and the same aggregate for every instrument, as over the valid
lines alone, and emits exactly one diagnostic, the one for `m`. -/
theorem malformed_line_tolerance (pre post : List Str) (m line : Str)
    (hvalid : ∀ l ∈ pre ++ post, regex_match l dataFormat = true)
    (hparse : ∀ l ∈ pre ++ post, ∃ r, GetNext { dataStream := [], line := l } = Except.ok r)
    (hm : stripReturn m = Except.ok line) (hbad : regex_match line dataFormat = false) :
    ∃ tradeMgr : CTradeDataMgr,
      ingest CTradeDataMgr.init (pre ++ post) = some (Except.ok (tradeMgr, []))
        ∧ ingest CTradeDataMgr.init (pre ++ m :: post)
            = some (Except.ok (tradeMgr, [skipMessage ++ line])) := by
  obtain ⟨es1, h1⟩ := processLines_valid pre
    (fun l hl => hvalid l (List.mem_append_left _ hl))
    (fun l hl => hparse l (List.mem_append_left _ hl))
  obtain ⟨es2, h2⟩ := processLines_valid post
    (fun l hl => hvalid l (List.mem_append_right _ hl))
    (fun l hl => hparse l (List.mem_append_right _ hl))
  refine ⟨addAll (addAll CTradeDataMgr.init es1) es2, ?_, ?_⟩
  · rw [ingest_eq_processLines, processLines_append, h1]
    simp only [h2]
  · rw [ingest_eq_processLines, processLines_append, h1]
    simp only [processLines_malformed _ _ _ _ _ hm hbad, h2, List.nil_append]

theorem malformed_line_tolerance_witness :
    (∀ l ∈ [sampleLine] ++ [sampleLine], regex_match l dataFormat = true)
      ∧ (∀ l ∈ [sampleLine] ++ [sampleLine],
          ∃ r, GetNext { dataStream := [], line := l } = Except.ok r)
      ∧ stripReturn ['x', '\r'] = Except.ok ['x']
      ∧ regex_match ['x'] dataFormat = false
      ∧ ∃ tradeMgr : CTradeDataMgr,
          ingest CTradeDataMgr.init ([sampleLine] ++ [sampleLine])
              = some (Except.ok (tradeMgr, []))
            ∧ ingest CTradeDataMgr.init ([sampleLine] ++ ['x', '\r'] :: [sampleLine])
                = some (Except.ok (tradeMgr, [skipMessage ++ ['x']])) :=
  have hv : ∀ l ∈ [sampleLine] ++ [sampleLine], regex_match l dataFormat = true := by
    intro l hl
    have : l = sampleLine := by simpa using hl
    rw [this]
    decide
  have hp : ∀ l ∈ [sampleLine] ++ [sampleLine],
      ∃ r, GetNext { dataStream := [], line := l } = Except.ok r := by
    intro l hl
    have : l = sampleLine := by simpa using hl
    rw [this]
    exact ⟨_, rfl⟩
  ⟨hv, hp, rfl, by decide,
    malformed_line_tolerance [sampleLine] [sampleLine] ['x', '\r'] ['x'] hv hp
      rfl (by decide)⟩

/-- C10, as stated, fails: the line `100,abc,0,5` passes the validity predicate, and after it
the aggregate of `abc` has a `totalVolume` of zero. -/
theorem totalVolume_zero :
    regex_match zeroQuantityLine dataFormat = true
      ∧ ∃ tradeMgr clog a, ingest CTradeDataMgr.init [zeroQuantityLine]
            = some (Except.ok (tradeMgr, clog))
          ∧ mapFind ['a', 'b', 'c'] tradeMgr.tradeDataLookup = some a
          ∧ a.totalVolume = 0 := by
  have hv : regex_match zeroQuantityLine dataFormat = true := by decide
  refine ⟨hv, ?_⟩
  have hshape : Shape zeroQuantityLine ['1', '0', '0'] ['a', 'b', 'c'] ['0'] ['5'] :=
    ⟨rfl, by simp, by simp, by simp, by simp, by decide, by decide, by decide, by decide⟩
  have hget : GetNext { dataStream := [], line := zeroQuantityLine }
      = Except.ok { timestamp := 100, instrument := ['a', 'b', 'c'],
                    quantity := 0, price := 5 } := by
    rw [GetNext_shape _ _ _ _ _ hshape]
    have d0 : decimalValue ['1', '0', '0'] = 100 := by decide
    have d2 : decimalValue ['0'] = 0 := by decide
    have d3 : decimalValue ['5'] = 5 := by decide
    unfold entryOfFields
    simp only [d0, d2, d3, roundToDouble_small 0 (by norm_num),
      roundToDouble_small 5 (by norm_num)]
    norm_num [LONG_MAX]
  have hrun : ingest CTradeDataMgr.init [zeroQuantityLine]
      = some (Except.ok (addDataEntry CTradeDataMgr.init
          { timestamp := 100, instrument := ['a', 'b', 'c'], quantity := 0, price := 5 },
          [])) := by
    rw [ingest_eq_processLines]
    simp only [processLines, stripReturn_of_valid _ hv, hv, if_true, hget]
  have hfind := aggregateOf_addDataEntry_self CTradeDataMgr.init
    { timestamp := 100, instrument := ['a', 'b', 'c'], quantity := 0, price := 5 }
  refine ⟨_, _, _, hrun, hfind, ?_⟩
  simp [specAggregate, aggregateOf, CTradeDataMgr.init, mapFind]

/-- C10, amended: for every list of input lines on which the driver loop does not fail and
whose accepted lines all have a quantity that is not zero, every aggregate in the resulting
table has a `totalVolume` greater than zero, so the division `totalConsideration /
totalVolume` of the reference presenter is not a division by zero. -/
theorem totalVolume_pos (lines : List Str) (tradeMgr : CTradeDataMgr) (clog : List Str)
    (hrun : ingest CTradeDataMgr.init lines = some (Except.ok (tradeMgr, clog)))
    (hq : ∀ raw ∈ lines, ∀ line e, stripReturn raw = Except.ok line →
      regex_match line dataFormat = true →
      GetNext { dataStream := [], line := line } = Except.ok e → e.quantity ≠ 0)
    (inst : Str) (a : TInstTradeData)
    (ha : mapFind inst tradeMgr.tradeDataLookup = some a) :
    0 < a.totalVolume := by
  rw [ingest_eq_processLines] at hrun
  obtain ⟨entries, hmgr, hall⟩ := processLines_ok lines _ _ _ _ (Option.some.inj hrun)
  have hpos : ∀ e ∈ entries, 0 < e.quantity := by
    intro e he
    obtain ⟨raw, hraw, line, h1, h2, h3⟩ := hall e he
    have hnn := GetNext_quantity_nonneg { dataStream := [], line := line } e h2 h3
    have hne := hq raw hraw line e h1 h2 h3
    exact lt_of_le_of_ne hnn (Ne.symm hne)
  subst hmgr
  cases hrec : recordsOf inst entries with
  | nil =>
    have hnone := aggregateOf_addAll entries CTradeDataMgr.init inst
    simp only [hrec, List.foldl_nil, aggregateOf, CTradeDataMgr.init, mapFind] at hnone
    have hh := ha
    simp only [CTradeDataMgr.init] at hh
    rw [hh] at hnone
    exact absurd hnone (by simp)
  | cons r rs =>
    have hsome := aggregateOf_init_addAll entries inst r rs hrec
    have hmem : ∀ r', r' ∈ r :: rs → r' ∈ entries := by
      intro r' hr'
      rw [← hrec] at hr'
      exact ((mem_recordsOf entries inst r').mp hr').1
    have haeq : a = runAggregate (TInstTradeData.ofEntry r) rs :=
      Option.some.inj (ha.symm.trans hsome)
    rw [haeq]
    apply runAggregate_totalVolume_pos
    · exact hpos r (hmem r (List.mem_cons_self _ _))
    · intro r' hr'
      exact le_of_lt (hpos r' (hmem r' (List.mem_cons_of_mem _ hr')))

theorem totalVolume_pos_witness :
    (∃ tradeMgr, ingest CTradeDataMgr.init [sampleLine] = some (Except.ok (tradeMgr, []))
        ∧ ∃ a, mapFind ['a', 'b', 'c'] tradeMgr.tradeDataLookup = some a
          ∧ 0 < a.totalVolume) := by
  have hv : regex_match sampleLine dataFormat = true := by decide
  have hshape : Shape sampleLine ['1', '0', '0'] ['a', 'b', 'c'] ['1', '0'] ['5'] :=
    ⟨rfl, by simp, by simp, by simp, by simp, by decide, by decide, by decide, by decide⟩
  have hget : GetNext { dataStream := [], line := sampleLine }
      = Except.ok { timestamp := 100, instrument := ['a', 'b', 'c'],
                    quantity := 10, price := 5 } := by
    rw [GetNext_shape _ _ _ _ _ hshape]
    have d0 : decimalValue ['1', '0', '0'] = 100 := by decide
    have d2 : decimalValue ['1', '0'] = 10 := by decide
    have d3 : decimalValue ['5'] = 5 := by decide
    unfold entryOfFields
    simp only [d0, d2, d3, roundToDouble_small 10 (by norm_num),
      roundToDouble_small 5 (by norm_num)]
    norm_num [LONG_MAX]
  have hrun : ingest CTradeDataMgr.init [sampleLine]
      = some (Except.ok (addDataEntry CTradeDataMgr.init
          { timestamp := 100, instrument := ['a', 'b', 'c'], quantity := 10, price := 5 },
          [])) := by
    rw [ingest_eq_processLines]
    simp only [processLines, stripReturn_of_valid _ hv, hv, if_true, hget]
  have hfind := aggregateOf_addDataEntry_self CTradeDataMgr.init
    { timestamp := 100, instrument := ['a', 'b', 'c'], quantity := 10, price := 5 }
  refine ⟨_, hrun, _, hfind, ?_⟩
  refine totalVolume_pos [sampleLine] _ [] hrun ?_ ['a', 'b', 'c'] _ hfind
  intro raw hraw line e h1 h2 h3
  have hr : raw = sampleLine := by simpa using hraw
  subst hr
  rw [stripReturn_of_valid _ hv] at h1
  have hl : line = sampleLine := (Except.ok.inj h1).symm
  subst hl
  rw [hget] at h3
  have := Except.ok.inj h3
  rw [← this]
  norm_num

/-- C13: when the run over a list of input lines completes, the number of keys of the final
table is the number of distinct instrument identifiers among the accepted lines; a line that
is rejected contributes no key. -/
theorem keys_count_eq_accepted_instruments (lines : List Str) (tradeMgr : CTradeDataMgr)
    (clog : List Str)
    (h : ingest CTradeDataMgr.init lines = some (Except.ok (tradeMgr, clog))) :
    tradeMgr.tradeDataLookup.length = ((acceptedInstruments lines).dedup).length := by
  rw [ingest_eq_processLines] at h
  obtain ⟨entries, hmgr, hmap⟩ := processLines_instruments lines _ _ _ _ (Option.some.inj h)
  rw [hmgr, keysOf_length_eq_dedup, hmap]

theorem keys_count_eq_accepted_instruments_witness :
    ingest CTradeDataMgr.init [rejectedLine]
        = some (Except.ok (CTradeDataMgr.init, [skipMessage ++ rejectedLine]))
      ∧ acceptedInstruments [rejectedLine] = []
      ∧ CTradeDataMgr.init.tradeDataLookup.length
          = ((acceptedInstruments [rejectedLine]).dedup).length := by
  have hstrip : stripReturn rejectedLine = Except.ok rejectedLine := rfl
  have hbad : regex_match rejectedLine dataFormat = false := by decide
  have hrun : ingest CTradeDataMgr.init [rejectedLine]
      = some (Except.ok (CTradeDataMgr.init, [skipMessage ++ rejectedLine])) := by
    rw [ingest_eq_processLines, processLines_malformed _ _ _ _ _ hstrip hbad]
    rfl
  refine ⟨hrun, ?_, keys_count_eq_accepted_instruments [rejectedLine] _ _ hrun⟩
  simp [acceptedInstruments, acceptedInstrument, hstrip, hbad]

/-- C14: order-independence of the totals. Two sequences of records that are permutations of
each other, each fed to a fresh engine, give tables with the same keys and, for every
instrument, the same `totalVolume`, `totalConsideration` and `maxPrice` (exact arithmetic). -/
theorem totals_order_independent (entries₁ entries₂ : List TDataEntry)
    (h : entries₁.Perm entries₂) (inst : Str) :
    (inst ∈ keysOf (addAll CTradeDataMgr.init entries₁).tradeDataLookup
        ↔ inst ∈ keysOf (addAll CTradeDataMgr.init entries₂).tradeDataLookup)
      ∧ (mapFind inst (addAll CTradeDataMgr.init entries₁).tradeDataLookup).map
          (fun a => (a.totalVolume, a.totalConsideration, a.maxPrice))
        = (mapFind inst (addAll CTradeDataMgr.init entries₂).tradeDataLookup).map
          (fun a => (a.totalVolume, a.totalConsideration, a.maxPrice)) := by
  constructor
  · rw [mem_keysOf_addAll, mem_keysOf_addAll]
    have := (h.map (fun r => r.instrument)).mem_iff (a := inst)
    rw [this]
  · have hperm : (recordsOf inst entries₁).Perm (recordsOf inst entries₂) :=
      h.filter _
    have h1 := aggregateOf_addAll entries₁ CTradeDataMgr.init inst
    have h2 := aggregateOf_addAll entries₂ CTradeDataMgr.init inst
    unfold aggregateOf at h1 h2
    cases hr1 : recordsOf inst entries₁ with
    | nil =>
      rw [hr1] at hperm
      have hr2 : recordsOf inst entries₂ = [] := List.Perm.eq_nil hperm.symm
      rw [h1, h2, hr1, hr2]
    | cons r₁ rs₁ =>
      cases hr2 : recordsOf inst entries₂ with
      | nil =>
        rw [hr2] at hperm
        have := List.Perm.eq_nil hperm
        rw [hr1] at this
        exact absurd this (by simp)
      | cons r₂ rs₂ =>
        rw [hr1, hr2] at hperm
        obtain ⟨e1, e2, e3⟩ := runAggregate_perm r₁ r₂ rs₁ rs₂ hperm
        have a1 := aggregateOf_init_addAll entries₁ inst r₁ rs₁ hr1
        have a2 := aggregateOf_init_addAll entries₂ inst r₂ rs₂ hr2
        unfold aggregateOf at a1 a2
        rw [a1, a2]
        simp [e1, e2, e3]

theorem totals_order_independent_witness :
    scenario1.Perm scenario1.reverse
      ∧ ((['a', 'b', 'c'] : Str) ∈ keysOf (addAll CTradeDataMgr.init scenario1).tradeDataLookup
          ↔ (['a', 'b', 'c'] : Str)
              ∈ keysOf (addAll CTradeDataMgr.init scenario1.reverse).tradeDataLookup)
      ∧ (mapFind ['a', 'b', 'c'] (addAll CTradeDataMgr.init scenario1).tradeDataLookup).map
          (fun a => (a.totalVolume, a.totalConsideration, a.maxPrice))
        = (mapFind ['a', 'b', 'c']
            (addAll CTradeDataMgr.init scenario1.reverse).tradeDataLookup).map
          (fun a => (a.totalVolume, a.totalConsideration, a.maxPrice)) :=
  ⟨(List.reverse_perm scenario1).symm,
    totals_order_independent scenario1 scenario1.reverse (List.reverse_perm scenario1).symm
      ['a', 'b', 'c']⟩

/-- C15: for every engine state whose presenter is unset, as the initial state is and as any
state is after `setDataPresenter` with a null presenter, and for every sink, `presentData`
writes nothing to the sink, raises no error and leaves the manager, hence the table,
unchanged, whatever data the table holds. -/
theorem presentData_without_presenter (mgr : CTradeDataMgr) (out : Str)
    (h : mgr.presenter = none) : presentData mgr out = Except.ok (mgr, out) := by
  unfold presentData
  rw [h]

theorem presentData_without_presenter_witness :
    (addAll CTradeDataMgr.init scenario1).presenter = none
      ∧ (setDataPresenter (addAll CTradeDataMgr.init scenario1) none).presenter = none
      ∧ presentData (addAll CTradeDataMgr.init scenario1) "x".toList
          = Except.ok (addAll CTradeDataMgr.init scenario1, "x".toList)
      ∧ presentData (setDataPresenter (addAll CTradeDataMgr.init scenario1) none) []
          = Except.ok (setDataPresenter (addAll CTradeDataMgr.init scenario1) none, []) :=
  ⟨rfl, rfl, presentData_without_presenter _ _ rfl, presentData_without_presenter _ _ rfl⟩

/-- C16: exactly one trailing carriage return is stripped before validation. For every line
`L` that does not end in a carriage return, `L` followed by one carriage return is accepted
exactly when `L` is, and then `HasNext` leaves the same iterator, whose `line` is `L`, so that
`GetNext` yields the same record; and a line `L` of the expected shape followed by two
carriage returns is rejected, with a diagnostic. -/
theorem strip_one_return (L l0 : Str) (clog : List Str) (h : L.getLast? ≠ some '\r') :
    (∀ it c, HasNext { dataStream := [L ++ ['\r']], line := l0 } clog = Except.ok (true, it, c)
        ↔ HasNext { dataStream := [L], line := l0 } clog = Except.ok (true, it, c))
      ∧ (∀ it c, HasNext { dataStream := [L], line := l0 } clog = Except.ok (true, it, c) →
          it.line = L ∧ c = clog)
      ∧ (regex_match L dataFormat = true →
          HasNext { dataStream := [L ++ ['\r', '\r']], line := l0 } clog
            = Except.ok (false, { dataStream := [], line := L ++ ['\r'] },
                clog ++ [skipMessage ++ (L ++ ['\r'])])) := by
  refine ⟨?_, ?_, ?_⟩
  · intro it c
    by_cases hne : L = []
    · subst hne
      have h1 : stripReturn ([] ++ ['\r']) = Except.ok [] := stripReturn_append_return []
      have h2 : regex_match [] dataFormat = false := by decide
      simp [HasNext, hasNextLoop, h1, h2, stripReturn]
    · simp only [HasNext, hasNextLoop, stripReturn_append_return,
        stripReturn_of_ne_nil L hne h]
  · intro it c hacc
    by_cases hne : L = []
    · subst hne
      simp [HasNext, hasNextLoop, stripReturn] at hacc
    · simp only [HasNext, hasNextLoop, stripReturn_of_ne_nil L hne h] at hacc
      by_cases hv : regex_match L dataFormat = true
      · simp only [hv, if_true, Except.ok.injEq, Prod.mk.injEq, true_and] at hacc
        exact ⟨by rw [← hacc.1], hacc.2.symm⟩
      · simp [hv] at hacc
  · intro hv
    have h1 : stripReturn (L ++ ['\r', '\r']) = Except.ok (L ++ ['\r']) := by
      have : L ++ ['\r', '\r'] = (L ++ ['\r']) ++ ['\r'] := by simp
      rw [this]
      exact stripReturn_append_return _
    simp [HasNext, hasNextLoop, h1, return_not_valid L]

theorem strip_one_return_witness :
    sampleLine.getLast? ≠ some '\r'
      ∧ regex_match sampleLine dataFormat = true
      ∧ HasNext { dataStream := [sampleLine ++ ['\r']], line := [] } []
          = Except.ok (true, { dataStream := [], line := sampleLine }, [])
      ∧ HasNext { dataStream := [sampleLine ++ ['\r', '\r']], line := [] } []
          = Except.ok (false, { dataStream := [], line := sampleLine ++ ['\r'] },
              [] ++ [skipMessage ++ (sampleLine ++ ['\r'])]) := by
  have hl : sampleLine.getLast? ≠ some '\r' := by decide
  have hv : regex_match sampleLine dataFormat = true := by decide
  have h := strip_one_return sampleLine [] [] hl
  refine ⟨hl, hv, ?_, h.2.2 hv⟩
  apply (h.1 _ _).mpr
  simp [HasNext, hasNextLoop, stripReturn_of_valid _ hv, hv]

/-- C18: per-instrument independence. The aggregate of an instrument after a sequence of
records is fed to a fresh engine is its aggregate after only the records of that instrument
are, in the same order; and a single `addDataEntry` for another instrument leaves the
aggregate of the instrument as it was, and every key other than the record's own present or
absent as it was. -/
theorem instrument_independence (entries : List TDataEntry) (inst : Str) (mgr : CTradeDataMgr)
    (r : TDataEntry) :
    mapFind inst (addAll CTradeDataMgr.init entries).tradeDataLookup
        = mapFind inst (addAll CTradeDataMgr.init (recordsOf inst entries)).tradeDataLookup
      ∧ (r.instrument ≠ inst →
          mapFind inst (addDataEntry mgr r).tradeDataLookup
            = mapFind inst mgr.tradeDataLookup)
      ∧ ∀ k, k ≠ r.instrument →
          (k ∈ keysOf (addDataEntry mgr r).tradeDataLookup ↔ k ∈ keysOf mgr.tradeDataLookup) := by
  refine ⟨?_, ?_, ?_⟩
  · have h1 := aggregateOf_addAll entries CTradeDataMgr.init inst
    have h2 := aggregateOf_addAll (recordsOf inst entries) CTradeDataMgr.init inst
    have hidem : recordsOf inst (recordsOf inst entries) = recordsOf inst entries := by
      simp [recordsOf, List.filter_filter]
    rw [hidem] at h2
    unfold aggregateOf at h1 h2
    rw [h1, h2]
  · intro hne
    exact aggregateOf_addDataEntry_other mgr r inst (fun e => hne e.symm)
  · intro k hk
    rw [mem_keysOf_addDataEntry]
    constructor
    · rintro (e | e)
      · exact absurd e hk
      · exact e
    · intro e
      exact Or.inr e

/-- C19: for every sequence of records and every instrument in it, the stored `maxTradeGap`
is the maximum of `0` and of all the differences between the timestamp of a record of the
instrument and that of the record of the instrument just before it in arrival order; it is
`0` when the instrument has a single record and when every such difference is negative; and
the stored `lastTradeTime` is the timestamp of the last record of the instrument in arrival
order. -/
theorem maxTradeGap_and_lastTradeTime (entries : List TDataEntry) (inst : Str)
    (h : inst ∈ entries.map (fun r => r.instrument)) :
    ∃ a, mapFind inst (addAll CTradeDataMgr.init entries).tradeDataLookup = some a
      ∧ (0 :: gaps (timestampsOf inst entries)).max? = some a.maxTradeGap
      ∧ ((recordsOf inst entries).length = 1 → a.maxTradeGap = 0)
      ∧ ((∀ d ∈ gaps (timestampsOf inst entries), d < 0) → a.maxTradeGap = 0)
      ∧ (timestampsOf inst entries).getLast? = some a.lastTradeTime := by
  cases hrec : recordsOf inst entries with
  | nil => exact absurd hrec (recordsOf_ne_nil entries inst h)
  | cons r rs =>
    have hgap : (runAggregate (TInstTradeData.ofEntry r) rs).maxTradeGap
        = (gaps (timestampsOf inst entries)).foldl max 0 := by
      rw [runAggregate_maxTradeGap]
      simp [timestampsOf, hrec, TInstTradeData.ofEntry]
    refine ⟨_, aggregateOf_init_addAll entries inst r rs hrec, ?_, ?_, ?_, ?_⟩
    · rw [hgap]
      rfl
    · intro hlen
      have hrs : rs = [] := by
        simpa using hlen
      rw [hgap]
      simp [timestampsOf, hrec, hrs, gaps]
    · intro hneg
      rw [hgap]
      exact foldl_max_eq_of_le _ _ (fun d hd => le_of_lt (hneg d hd))
    · have := runAggregate_lastTradeTime rs (TInstTradeData.ofEntry r)
      simpa [timestampsOf, hrec, TInstTradeData.ofEntry] using this

theorem maxTradeGap_and_lastTradeTime_witness :
    (['x', 'y', 'z'] : Str) ∈ scenario2.map (fun r => r.instrument)
      ∧ ∃ a, mapFind ['x', 'y', 'z'] (addAll CTradeDataMgr.init scenario2).tradeDataLookup
            = some a
        ∧ (0 :: gaps (timestampsOf ['x', 'y', 'z'] scenario2)).max? = some a.maxTradeGap
        ∧ ((recordsOf ['x', 'y', 'z'] scenario2).length = 1 → a.maxTradeGap = 0)
        ∧ ((∀ d ∈ gaps (timestampsOf ['x', 'y', 'z'] scenario2), d < 0) → a.maxTradeGap = 0)
        ∧ (timestampsOf ['x', 'y', 'z'] scenario2).getLast? = some a.lastTradeTime :=
  ⟨by decide, maxTradeGap_and_lastTradeTime scenario2 ['x', 'y', 'z'] (by decide)⟩

/-- C17, as stated, fails: for the single input line `x` followed by a carriage return, which
is rejected, the diagnostic ends with `x`, the line as stripped, and not with the original
text of the line. -/
theorem diagnostic_is_stripped :
    ingest CTradeDataMgr.init [['x', '\r']]
        = some (Except.ok (CTradeDataMgr.init, [skipMessage ++ ['x']]))
      ∧ specDiagnostics [['x', '\r']] = [skipMessage ++ ['x', '\r']]
      ∧ [skipMessage ++ ['x']] ≠ specDiagnostics [['x', '\r']] := by
  have hstrip : stripReturn ['x', '\r'] = Except.ok ['x'] := rfl
  have hbad : regex_match ['x'] dataFormat = false := by decide
  have hspec : specDiagnostics [['x', '\r']] = [skipMessage ++ ['x', '\r']] := by
    simp [specDiagnostics, isAccepted, hstrip, hbad]
  refine ⟨?_, hspec, ?_⟩
  · rw [ingest_eq_processLines, processLines_malformed _ _ _ _ _ hstrip hbad]
    rfl
  · rw [hspec]
    decide

/-- C17, amended: for every list of input lines on which the run completes, the diagnostics
written to `clog` are exactly one for each rejected line, in input order, each the text
`Skipping mal-formatted data line : ` followed by the text of that line stripped of one
trailing carriage return; accepted lines write no diagnostic; and the primary output is the one
the accepted lines alone give, with no diagnostic at all, so that no diagnostic text reaches
it. -/
theorem diagnostics_of_run (showDouble : ℚ → Str) (input : List Str) (output : Str)
    (clog : List Str) (h : main showDouble input = some (Except.ok (output, clog))) :
    clog = input.filterMap diagnosticOf
      ∧ main showDouble (input.filter isAccepted) = some (Except.ok (output, [])) := by
  rw [main_eq] at h
  cases hrun : processLines input
      (setDataPresenter CTradeDataMgr.init (some (CQuantLabPresenter showDouble))) [] with
  | error f =>
    rw [hrun] at h
    simp at h
  | ok res =>
    obtain ⟨tradeMgr, clog'⟩ := res
    rw [hrun] at h
    simp only at h
    cases hpres : presentData tradeMgr [] with
    | error f =>
      rw [hpres] at h
      simp at h
    | ok res' =>
      obtain ⟨mgr', out'⟩ := res'
      rw [hpres] at h
      simp only [Option.some.injEq, Except.ok.injEq, Prod.mk.injEq] at h
      obtain ⟨hout, hclog⟩ := h
      constructor
      · rw [← hclog, processLines_clog _ _ _ _ _ hrun]
        simp
      · rw [main_eq, processLines_filter _ _ _ _ _ [] hrun]
        simp only [hpres, hout]

theorem diagnostics_of_run_witness :
    main showNatural [['x', '\r'], sampleLine]
        = some (Except.ok ("abc,0,10,5,5\n".toList, [skipMessage ++ ['x']]))
      ∧ [skipMessage ++ ['x']] = [['x', '\r'], sampleLine].filterMap diagnosticOf
      ∧ main showNatural ([['x', '\r'], sampleLine].filter isAccepted)
          = some (Except.ok ("abc,0,10,5,5\n".toList, [])) := by
  have hstrip : stripReturn ['x', '\r'] = Except.ok ['x'] := rfl
  have hbad : regex_match ['x'] dataFormat = false := by decide
  have hv : regex_match sampleLine dataFormat = true := by decide
  have hshape : Shape sampleLine ['1', '0', '0'] ['a', 'b', 'c'] ['1', '0'] ['5'] :=
    ⟨rfl, by simp, by simp, by simp, by simp, by decide, by decide, by decide, by decide⟩
  have hget : ∀ s, GetNext { dataStream := s, line := sampleLine }
      = Except.ok { timestamp := 100, instrument := ['a', 'b', 'c'],
                    quantity := 10, price := 5 } := by
    intro s
    rw [GetNext_shape _ _ _ _ _ hshape]
    have d0 : decimalValue ['1', '0', '0'] = 100 := by decide
    have d2 : decimalValue ['1', '0'] = 10 := by decide
    have d3 : decimalValue ['5'] = 5 := by decide
    unfold entryOfFields
    simp only [d0, d2, d3, roundToDouble_small 10 (by norm_num),
      roundToDouble_small 5 (by norm_num)]
    norm_num [LONG_MAX]
  have hline : presentLine showNatural (['a', 'b', 'c'], TInstTradeData.ofEntry
      { timestamp := 100, instrument := ['a', 'b', 'c'], quantity := 10, price := 5 })
      = Except.ok "abc,0,10,5,5\n".toList := by
    have htr : truncate ((5 : ℚ) * 10 / 10) = 5 := by
      unfold truncate
      norm_num
    have havg : averagePrice (TInstTradeData.ofEntry
        { timestamp := 100, instrument := ['a', 'b', 'c'], quantity := 10, price := 5 })
        = Except.ok 5 := by
      unfold averagePrice toLong
      simp only [TInstTradeData.ofEntry, htr]
      rw [if_neg (by norm_num), if_pos (by decide)]
    rw [presentLine_of_average _ _ _ havg]
    have h10 : showNatural 10 = ['1', '0'] := by
      have hf : ⌊(10 : ℚ)⌋.toNat = 10 := by
        rw [Int.floor_ofNat]
        rfl
      unfold showNatural
      rw [hf]
      norm_num [decimalDigits]
    have h5 : showNatural 5 = ['5'] := by
      have hf : ⌊(5 : ℚ)⌋.toNat = 5 := by
        rw [Int.floor_ofNat]
        rfl
      unfold showNatural
      rw [hf]
      norm_num [decimalDigits]
    have l0 : showLong 0 = ['0'] := by
      norm_num [showLong, decimalDigits]
    have l5 : showLong 5 = ['5'] := by
      norm_num [showLong, decimalDigits]
    simp only [TInstTradeData.ofEntry, h10, h5, l0, l5]
    rfl
  have hmain : main showNatural [['x', '\r'], sampleLine]
      = some (Except.ok ("abc,0,10,5,5\n".toList, [skipMessage ++ ['x']])) := by
    rw [main_eq, processLines_malformed _ _ _ _ _ hstrip hbad]
    simp only [processLines, stripReturn_of_valid _ hv, hv, if_true, hget]
    have htable : (addDataEntry
        (setDataPresenter CTradeDataMgr.init (some (CQuantLabPresenter showNatural)))
        { timestamp := 100, instrument := ['a', 'b', 'c'], quantity := 10,
          price := 5 }).tradeDataLookup
        = [(['a', 'b', 'c'], TInstTradeData.ofEntry
            { timestamp := 100, instrument := ['a', 'b', 'c'], quantity := 10,
              price := 5 })] := rfl
    have hpres : (addDataEntry
        (setDataPresenter CTradeDataMgr.init (some (CQuantLabPresenter showNatural)))
        { timestamp := 100, instrument := ['a', 'b', 'c'], quantity := 10,
          price := 5 }).presenter = some (CQuantLabPresenter showNatural) := rfl
    simp only [presentData, hpres, htable, CQuantLabPresenter_cons, hline,
      CQuantLabPresenter_nil]
    rfl
  have hres := diagnostics_of_run showNatural [['x', '\r'], sampleLine] _ _ hmain
  exact ⟨hmain, hres.1, hres.2⟩

end TradeMgr
